import Mathlib

/-!
Shallow embedding of the A-Maze repository's algorithmic core:
`maze_generator.py` (randomized DFS maze carving) and `astar.py`
(A* search over a grid with a wall set), together with theorems
checking the specification's claims against this embedding.

Conventions:
* a cell is an integer pair `(x, y)` as in Python;
* a wall is an ordered pair of cells, canonicalized exactly the way
  Python's `tuple(sorted([c1, c2]))` does (lexicographic order);
* Python sets of walls/cells become `Finset`s, Python dicts become
  association lists with first-match lookup (an update is a prepend,
  which has the same lookup semantics as a dict update);
* Python's `heapq` of `(f, cell)` pairs is modelled as a multiset of
  entries from which `pop` extracts the minimum under the total
  lexicographic order on `(ℕ, cell)` — exactly the value `heapq.heappop`
  returns, since tuple comparison is total;
* the pseudo-random stream feeding `random.shuffle(directions)` is a
  parameter `rng : ℕ → List (Int × Int)`: call number `k` of
  `_carve_paths` sees the direction order `rng k`;
* recursion in Python (CPython's call stack / while loops) is modelled
  with explicit fuel, with theorems showing the chosen fuel suffices.
-/

namespace AMaze

/-- A grid cell `(x, y)`, exactly Python's `Tuple[int, int]`. -/
abbrev Cell := Int × Int

/-- A wall as stored by the code: an ordered pair of cells. -/
abbrev Wall := Cell × Cell

/-- Python's `<=` on `(int, int)` tuples: lexicographic. -/
def cellLe (a b : Cell) : Bool :=
  a.1 < b.1 || (a.1 = b.1 && a.2 ≤ b.2)

/-- Python's `<` on `(int, int)` tuples: strict lexicographic. -/
def cellLt (a b : Cell) : Bool :=
  a.1 < b.1 || (a.1 = b.1 && a.2 < b.2)

/-- `tuple(sorted([a, b]))` from the Python sources: the two cells in
lexicographic order. -/
def sortPair (a b : Cell) : Wall :=
  if cellLe a b then (a, b) else (b, a)

/-- The bounds check `0 <= x < width and 0 <= y < height` shared by
`maze_generator.py` and `astar.py`. -/
def inBounds (W H : Int) (c : Cell) : Bool :=
  0 ≤ c.1 && c.1 < W && 0 ≤ c.2 && c.2 < H

/-- Manhattan distance `abs(a[0]-b[0]) + abs(a[1]-b[1])`, as a natural
number (Python computes it on ints; it is nonnegative). -/
def manhattan (a b : Cell) : ℕ :=
  (a.1 - b.1).natAbs + (a.2 - b.2).natAbs

/-- All in-bounds cells of a `width × height` grid. -/
def grid (W H : Int) : Finset Cell :=
  Finset.Ico 0 W ×ˢ Finset.Ico 0 H

/-- The direction list of `MazeGenerator._carve_paths` before shuffling:
`[(1, 0), (0, 1), (-1, 0), (0, -1)]`. -/
def genDirs : List (Int × Int) := [(1, 0), (0, 1), (-1, 0), (0, -1)]

/-- The neighbor direction order of `AStar._get_neighbors`:
`[(0, 1), (1, 0), (0, -1), (-1, 0)]`. -/
def astarDirs : List (Int × Int) := [(0, 1), (1, 0), (0, -1), (-1, 0)]

/-- Cell translation by a direction. -/
def stepCell (c : Cell) (d : Int × Int) : Cell := (c.1 + d.1, c.2 + d.2)

/-- The initial fully-walled state built by the loop at the top of
`MazeGenerator.generate`: a wall `((x,y),(x+1,y))` whenever `x < width-1`
and a wall `((x,y),(x,y+1))` whenever `y < height-1`. -/
def initWalls (W H : Int) : Finset Wall :=
  (grid W H).biUnion fun c =>
    (if c.1 < W - 1 then {(c, (c.1 + 1, c.2))} else ∅) ∪
    (if c.2 < H - 1 then {(c, (c.1, c.2 + 1))} else ∅)

/-- The mutable state of a `MazeGenerator` object: `self.walls`,
`self.visited`, plus the position `ctr` in the pseudo-random stream
(how many `random.shuffle` calls have been consumed). -/
structure GenState where
  walls : Finset Wall
  visited : Finset Cell
  ctr : ℕ
deriving DecidableEq

/-- A fresh `MazeGenerator(width, height)`: empty wall set, empty
visited set, at position 0 of the random stream. -/
def genInit : GenState := ⟨∅, ∅, 0⟩

/-- The parameters accepted by `MazeGenerator.__init__` (besides
`self`), read off the source: `def __init__(self, width, height)`. -/
def initParams : List String := ["width", "height"]

/-- Python keyword-call semantics for the constructor: a call supplying
keyword arguments succeeds only if every keyword names a parameter;
otherwise `TypeError: unexpected keyword argument` is raised. -/
def initAcceptsKwargs (kwargs : List String) : Bool :=
  kwargs.all fun kw => initParams.contains kw

/-- The direction loop body of `_carve_paths`: given the recursive call
`step` for carving from the next cell, try each direction of the
shuffled order in turn; on an in-bounds unvisited neighbor, remove the
wall between the cells (`set.remove` guarded by membership, i.e.
`Finset.erase`) and recurse. -/
def carveDirs (W H : Int) (step : Cell → GenState → GenState) (cell : Cell) :
    List (Int × Int) → GenState → GenState
  | [], s => s
  | d :: ds, s =>
    let n := stepCell cell d
    if inBounds W H n ∧ n ∉ s.visited then
      carveDirs W H step cell ds
        (step n { s with walls := s.walls.erase (sortPair cell n) })
    else
      carveDirs W H step cell ds s

/-- `MazeGenerator._carve_paths(cell)`: mark the cell visited, consume one
shuffle from the random stream, and process the four directions in the
shuffled order.  `fuel` bounds the recursion depth; `genFuel` below is
shown to be enough. -/
def carve (W H : Int) (rng : ℕ → List (Int × Int)) :
    ℕ → Cell → GenState → GenState
  | 0, _, s => s
  | fuel + 1, cell, s =>
    carveDirs W H (carve W H rng fuel) cell (rng s.ctr)
      { s with visited := insert cell s.visited, ctr := s.ctr + 1 }

/-- Recursion depth bound for the carving DFS: the number of grid cells
plus one. -/
def genFuel (W H : Int) : ℕ := W.toNat * H.toNat + 1

/-- `MazeGenerator.generate()`: add every interior wall to `self.walls`,
then carve from `(0, 0)`.  Returns the whole updated object state; the
Python return value is the `walls` field of the result. -/
def generate (W H : Int) (rng : ℕ → List (Int × Int)) (s : GenState) :
    GenState :=
  carve W H rng (genFuel W H) (0, 0) { s with walls := s.walls ∪ initWalls W H }

/-- The passages carved so far: interior walls no longer present. -/
def passages (W H : Int) (s : GenState) : Finset Wall :=
  initWalls W H \ s.walls

/-- `MazeGenerator.is_wall_between(cell1, cell2)`: `ValueError` for
non-adjacent cells, otherwise membership of the canonical pair. -/
def is_wall_between (walls : Finset Wall) (c1 c2 : Cell) :
    Except String Bool :=
  if manhattan c1 c2 ≠ 1 then Except.error "Cells must be adjacent"
  else Except.ok (decide (sortPair c1 c2 ∈ walls))

/-! ### The A* search of `astar.py` -/

/-- The mutable search state inside `AStar.find_path`: the heap
`open_set` (as a multiset of `(f, cell)` entries), `open_set_hash`,
`came_from`, `g_score`, `f_score`, and the `explored_order` trace. -/
structure AState where
  openL : List (ℕ × Cell)
  hashS : Finset Cell
  cameFrom : List (Cell × Option Cell)
  gS : List (Cell × ℕ)
  fS : List (Cell × ℕ)
  explored : List Cell

/-- First-match association-list lookup (Python dict access; an update
is modelled by prepending, which shadows older bindings the same way a
dict update overwrites). -/
def look {α : Type} : List (Cell × α) → Cell → Option α
  | [], _ => none
  | (k, v) :: rest, c => if c = k then some v else look rest c

/-- `AStar._heuristic`: Manhattan distance. -/
def heuristic (a b : Cell) : ℕ := manhattan a b

/-- `AStar._get_neighbors(node)`: the in-bounds cells one step away in
the order `[(0,1),(1,0),(0,-1),(-1,0)]` whose canonical wall is absent. -/
def getNeighbors (W H : Int) (walls : Finset Wall) (node : Cell) :
    List Cell :=
  astarDirs.filterMap fun d =>
    let nb := stepCell node d
    if inBounds W H nb ∧ sortPair node nb ∉ walls then some nb else none

/-- Python's tuple order on heap entries `(f, cell)`. -/
def keyLe (a b : ℕ × Cell) : Bool :=
  a.1 < b.1 || (a.1 = b.1 && cellLe a.2 b.2)

/-- The value `heapq.heappop` extracts: the minimum entry under the
total lexicographic order (`none` on an empty heap). -/
def minEntry : List (ℕ × Cell) → Option (ℕ × Cell)
  | [] => none
  | e :: rest => some (rest.foldl (fun a b => if keyLe a b then a else b) e)

/-- Remove one occurrence of an entry from the heap multiset. -/
def eraseEntry : List (ℕ × Cell) → (ℕ × Cell) → List (ℕ × Cell)
  | [], _ => []
  | x :: rest, e => if x = e then rest else x :: eraseEntry rest e

/-- The update guard `neighbor not in g_score or tentative < g_score[neighbor]`. -/
def better (t : ℕ) : Option ℕ → Bool
  | none => true
  | some gn => t < gn

/-- One iteration of the `for neighbor in ...` body of `find_path`:
possibly update `came_from`, `g_score`, `f_score`, and push the neighbor
with key `f_score[neighbor]` when it is not in `open_set_hash`. -/
def relaxOne (endC : Cell) (current : Cell) (gcur : ℕ) (nb : Cell)
    (s : AState) : AState :=
  let t := gcur + 1
  if better t (look s.gS nb) then
    let fn := t + heuristic nb endC
    let s' : AState :=
      { s with cameFrom := (nb, some current) :: s.cameFrom,
               gS := (nb, t) :: s.gS,
               fS := (nb, fn) :: s.fS }
    if nb ∈ s'.hashS then s'
    else { s' with openL := (fn, nb) :: s'.openL, hashS := insert nb s'.hashS }
  else s

/-- The whole neighbor loop, in `_get_neighbors` order. -/
def relaxList (endC : Cell) (current : Cell) (gcur : ℕ) :
    List Cell → AState → AState
  | [], s => s
  | nb :: rest, s =>
    relaxList endC current gcur rest (relaxOne endC current gcur nb s)

/-- Path reconstruction: follow `came_from` links from the goal back to
the start (whose link is `none`), producing the path in start→end order
(Python appends then reverses).  `none` models a lookup failure or
exhausted fuel, both shown impossible when invoked by the search. -/
def recon (cf : List (Cell × Option Cell)) : ℕ → Cell → Option (List Cell)
  | 0, _ => none
  | fuel + 1, c =>
    match look cf c with
    | none => none
    | some none => some [c]
    | some (some p) => (recon cf fuel p).map fun l => l ++ [c]

/-- The `while open_set:` loop of `find_path`.  The outer `Option` is a
model artifact: `none` means the fuel ran out or a dict lookup that
Python relies on failed; both are proved impossible for the fuel chosen
in `findPath`.  A genuine Python return is `some (path?, finalState)`. -/
def loopA (W H : Int) (walls : Finset Wall) (endC : Cell) :
    ℕ → AState → Option (Option (List Cell) × AState)
  | 0, _ => none
  | fuel + 1, s =>
    match minEntry s.openL with
    | none => some (none, s)
    | some e =>
      let cur := e.2
      let s1 : AState :=
        { s with openL := eraseEntry s.openL e, hashS := s.hashS.erase cur,
                 explored := s.explored ++ [cur] }
      if cur = endC then
        match recon s1.cameFrom (s1.cameFrom.length + 1) cur with
        | none => none
        | some p => some (some p, s1)
      else
        match look s1.gS cur with
        | none => none
        | some gcur =>
          loopA W H walls endC fuel
            (relaxList endC cur gcur (getNeighbors W H walls cur) s1)

/-- The state set up at the top of `find_path`: `heappush(open_set, (0, start))`,
`came_from[start] = None`, `g_score[start] = 0`,
`f_score[start] = h(start, end)`, `open_set_hash = {start}`. -/
def initA (start endC : Cell) : AState :=
  { openL := [(0, start)], hashS := {start}, cameFrom := [(start, none)],
    gS := [(start, 0)], fS := [(start, heuristic start endC)], explored := [] }

/-- Fuel for the search loop, proved sufficient below: strictly more
than the decreasing measure of the initial state. -/
def astarFuel (W H : Int) : ℕ :=
  (W.toNat * H.toNat + 6) * (1 + W.toNat * H.toNat * (W.toNat * H.toNat + 1)) + 2

/-- `AStar(width, height, walls).find_path(start, end)` together with the
final object state. -/
def findPath (W H : Int) (walls : Finset Wall) (start endC : Cell) :
    Option (Option (List Cell) × AState) :=
  loopA W H walls endC (astarFuel W H) (initA start endC)

/-- The Python return value of `find_path`. -/
def pathOf (r : Option (Option (List Cell) × AState)) :
    Option (Option (List Cell)) :=
  r.map fun x => x.1

/-- The `explored_order` list after the call (`get_explored_order`). -/
def exploredOf (r : Option (Option (List Cell) × AState)) :
    Option (List Cell) :=
  r.map fun x => x.2.explored

/-- The wall set of the concrete scenario in §8 of the spec and in
`test_astar_finds_shortest_path`. -/
def walls5x5 : Finset Wall :=
  {(((0 : Int), (1 : Int)), ((1 : Int), (1 : Int))),
   (((1 : Int), (1 : Int)), ((2 : Int), (1 : Int))),
   (((2 : Int), (1 : Int)), ((3 : Int), (1 : Int))),
   (((3 : Int), (1 : Int)), ((3 : Int), (2 : Int))),
   (((3 : Int), (2 : Int)), ((3 : Int), (3 : Int))),
   (((1 : Int), (3 : Int)), ((2 : Int), (3 : Int))),
   (((2 : Int), (3 : Int)), ((3 : Int), (3 : Int)))}

/-- A wall set on a 3×5 grid exhibiting a non-optimal answer of the
search: walls between `(0,0)`–`(1,0)` and `(1,2)`–`(1,3)`. -/
def wallsC2 : Finset Wall :=
  {(((0 : Int), (0 : Int)), ((1 : Int), (0 : Int))),
   (((1 : Int), (2 : Int)), ((1 : Int), (3 : Int)))}

/-- A wall set on a 4×3 grid for which the search finalizes the cell
`(1,2)` twice. -/
def wallsC7 : Finset Wall :=
  {(((0 : Int), (1 : Int)), ((1 : Int), (1 : Int))),
   (((1 : Int), (0 : Int)), ((1 : Int), (1 : Int))),
   (((1 : Int), (0 : Int)), ((2 : Int), (0 : Int))),
   (((2 : Int), (1 : Int)), ((3 : Int), (1 : Int)))}

/-- One legal move of the passage-graph: both cells in bounds, grid
adjacency (Manhattan distance 1), no wall between them. -/
def stepOkB (W H : Int) (walls : Finset Wall) (a b : Cell) : Bool :=
  decide (manhattan a b = 1) && inBounds W H a && inBounds W H b &&
    decide (sortPair a b ∉ walls)

/-- Every consecutive pair of the list is a legal move. -/
def chainOkB (W H : Int) (walls : Finset Wall) : List Cell → Bool
  | [] => true
  | [_] => true
  | a :: b :: rest => stepOkB W H walls a b && chainOkB W H walls (b :: rest)

/-- A valid route from `a` to `b` in the passage-graph. -/
def routeOkB (W H : Int) (walls : Finset Wall) (a b : Cell)
    (l : List Cell) : Bool :=
  decide (l.head? = some a) && decide (l.getLast? = some b) &&
    chainOkB W H walls l

/-- A simple path between two cells whose consecutive pairs all lie in
the given passage set: nonempty, starts at `a`, ends at `b`, visits no
cell twice. -/
def SimplePath (P : Finset Wall) (a b : Cell) (l : List Cell) : Prop :=
  l.head? = some a ∧ l.getLast? = some b ∧ l.Nodup ∧
    l.Chain' fun x y => sortPair x y ∈ P

/-- The way the carving DFS grows its passage set: starting from the
root alone, each step attaches one unvisited cell to a visited one
through one new passage.  This is precisely a tree spanning `v` with
edge set `p`. -/
inductive SpanTree (root : Cell) : Finset Cell → Finset Wall → Prop
  | base : SpanTree root {root} ∅
  | extend (v : Finset Cell) (p : Finset Wall) (c n : Cell) (d : Int × Int)
      (hst : SpanTree root v p) (hc : c ∈ v) (hn : n ∉ v)
      (hd : d ∈ genDirs) (hstep : n = stepCell c d) :
      SpanTree root (insert n v) (insert (sortPair c n) p)

/-- One traversable step of the search graph: `b` is an in-bounds
neighbor of `a` not separated by a wall (membership in
`_get_neighbors`). -/
def stepRel (W H : Int) (walls : Finset Wall) (a b : Cell) : Prop :=
  b ∈ getNeighbors W H walls a

/-- Reachability through passages. -/
def Reach (W H : Int) (walls : Finset Wall) : Cell → Cell → Prop :=
  Relation.ReflTransGen (stepRel W H walls)

/-- The property "this cell has a recorded `g_score` below `bound`". -/
def gLt (s : AState) (bound : ℕ) (x : Cell) : Prop :=
  ∃ gx, look s.gS x = some gx ∧ gx < bound

instance gLtDecidable (s : AState) (bound : ℕ) : DecidablePred (gLt s bound) :=
  fun x =>
  match h : look s.gS x with
  | none =>
    isFalse (by
      rintro ⟨gx, hgx, _⟩
      rw [h] at hgx
      exact Option.noConfusion hgx)
  | some gx =>
    decidable_of_iff (gx < bound) (by
      constructor
      · intro hlt
        exact ⟨gx, h, hlt⟩
      · rintro ⟨gx', hgx', hlt⟩
        rw [h] at hgx'
        cases hgx'
        exact hlt)

/-- Termination potential of one cell: undiscovered cells carry the
maximal weight, discovered cells carry their current `g_score` plus one
if they are not on the open heap. -/
def potC (N : ℕ) (s : AState) (c : Cell) : ℕ :=
  match look s.gS c with
  | none => N + 1
  | some v => v + (if c ∈ s.hashS then 0 else 1)

/-- Main termination measure of the search loop. -/
def measM (W H : Int) (s : AState) : ℕ :=
  s.openL.length + ∑ c ∈ grid W H, potC (grid W H).card s c

/-- Lexicographic-style combined measure, strictly decreasing at every
loop iteration. -/
def measT (W H : Int) (s : AState) : ℕ :=
  ((grid W H).card + 6) * measM W H s + s.openL.length

/-- The loop invariant of `find_path`'s `while` loop. -/
structure AInv (W H : Int) (walls : Finset Wall) (start endC : Cell)
    (s : AState) : Prop where
  iStartGrid : start ∈ grid W H
  iOpenHash : ∀ e ∈ s.openL, e.2 ∈ s.hashS
  iHashOpen : ∀ c ∈ s.hashS, c ∈ s.openL.map Prod.snd
  iOpenNodup : (s.openL.map Prod.snd).Nodup
  iHashDom : ∀ c ∈ s.hashS, (look s.gS c).isSome
  iDomEq : ∀ c : Cell, (look s.gS c).isSome ↔ (look s.cameFrom c).isSome
  iStartCf : look s.cameFrom start = some none
  iStartG : look s.gS start = some 0
  iNoneStart : ∀ c, look s.cameFrom c = some none → c = start
  iChain : ∀ c pr, look s.cameFrom c = some (some pr) →
    ∃ gc gp, look s.gS c = some gc ∧ look s.gS pr = some gp ∧ gp < gc ∧
      c ∈ getNeighbors W H walls pr ∧ pr ∈ s.explored
  iKeys : ∀ c, (look s.gS c).isSome → c ∈ grid W H
  iCount : ∀ c gc, look s.gS c = some gc →
    gc ≤ ((grid W H).filter (gLt s gc)).card
  iClosed : ∀ c ∈ s.explored, ∀ nb ∈ getNeighbors W H walls c,
    (look s.gS nb).isSome
  iExpDom : ∀ c ∈ s.explored, (look s.gS c).isSome
  iDomWhere : ∀ c : Cell, (look s.gS c).isSome →
    c ∈ s.explored ∨ c ∈ s.hashS
  iEndNot : endC ∉ s.explored
  iLen : s.gS.length = s.cameFrom.length

/-- The invariant holding between the pop of `current` and the end of
its neighbor loop: like `AInv`, but `current` is already finalized while
its neighbors may not yet carry a `g_score`. -/
structure AMid (W H : Int) (walls : Finset Wall) (start endC : Cell)
    (cur : Cell) (gcur : ℕ) (s : AState) : Prop where
  iStartGrid : start ∈ grid W H
  iOpenHash : ∀ e ∈ s.openL, e.2 ∈ s.hashS
  iHashOpen : ∀ c ∈ s.hashS, c ∈ s.openL.map Prod.snd
  iOpenNodup : (s.openL.map Prod.snd).Nodup
  iHashDom : ∀ c ∈ s.hashS, (look s.gS c).isSome
  iDomEq : ∀ c : Cell, (look s.gS c).isSome ↔ (look s.cameFrom c).isSome
  iStartCf : look s.cameFrom start = some none
  iStartG : look s.gS start = some 0
  iNoneStart : ∀ c, look s.cameFrom c = some none → c = start
  iChain : ∀ c pr, look s.cameFrom c = some (some pr) →
    ∃ gc gp, look s.gS c = some gc ∧ look s.gS pr = some gp ∧ gp < gc ∧
      c ∈ getNeighbors W H walls pr ∧ pr ∈ s.explored
  iKeys : ∀ c, (look s.gS c).isSome → c ∈ grid W H
  iCount : ∀ c gc, look s.gS c = some gc →
    gc ≤ ((grid W H).filter (gLt s gc)).card
  iClosedExc : ∀ c ∈ s.explored, c ≠ cur →
    ∀ nb ∈ getNeighbors W H walls c, (look s.gS nb).isSome
  iExpDom : ∀ c ∈ s.explored, (look s.gS c).isSome
  iDomWhere : ∀ c : Cell, (look s.gS c).isSome →
    c ∈ s.explored ∨ c ∈ s.hashS
  iEndNot : endC ∉ s.explored
  iLen : s.gS.length = s.cameFrom.length
  iCurG : look s.gS cur = some gcur
  iCurExp : cur ∈ s.explored
  iCurHash : cur ∉ s.hashS

-- ===== THEOREMS =====

theorem cellLe_total (a b : Cell) : cellLe a b = true ∨ cellLe b a = true := by
  simp only [cellLe, Bool.or_eq_true, decide_eq_true_eq, Bool.and_eq_true]
  omega

theorem cellLe_antisymm {a b : Cell} (h1 : cellLe a b = true)
    (h2 : cellLe b a = true) : a = b := by
  simp only [cellLe, Bool.or_eq_true, decide_eq_true_eq, Bool.and_eq_true] at h1 h2
  have : a.1 = b.1 ∧ a.2 = b.2 := by omega
  exact Prod.ext this.1 this.2

theorem sortPair_comm (a b : Cell) : sortPair a b = sortPair b a := by
  unfold sortPair
  by_cases h1 : cellLe a b = true <;> by_cases h2 : cellLe b a = true
  · rw [cellLe_antisymm h1 h2]
  · simp [h1, h2]
  · simp [h1, h2]
  · rcases cellLe_total a b with h | h
    · exact absurd h h1
    · exact absurd h h2

theorem sortPair_cases (a b : Cell) :
    sortPair a b = (a, b) ∨ sortPair a b = (b, a) := by
  unfold sortPair
  by_cases h : cellLe a b = true <;> simp [h]

theorem sortPair_eq_iff {x y u v : Cell}
    (h : sortPair x y = sortPair u v) :
    (x = u ∧ y = v) ∨ (x = v ∧ y = u) := by
  rcases sortPair_cases x y with hx | hx <;>
    rcases sortPair_cases u v with hu | hu <;>
    rw [hx, hu] at h <;>
    [exact Or.inl ⟨congrArg Prod.fst h, congrArg Prod.snd h⟩;
     exact Or.inr ⟨congrArg Prod.fst h, congrArg Prod.snd h⟩;
     exact Or.inr ⟨congrArg Prod.snd h, congrArg Prod.fst h⟩;
     exact Or.inl ⟨congrArg Prod.snd h, congrArg Prod.fst h⟩]

theorem sortPair_fst_or_snd (a b c : Cell) :
    (c = (sortPair a b).1 ∨ c = (sortPair a b).2) ↔ (c = a ∨ c = b) := by
  rcases sortPair_cases a b with h | h <;> rw [h] <;> constructor <;>
    rintro (rfl | rfl) <;> simp

theorem mem_grid {W H : Int} {c : Cell} :
    c ∈ grid W H ↔ 0 ≤ c.1 ∧ c.1 < W ∧ 0 ≤ c.2 ∧ c.2 < H := by
  simp [grid, Finset.mem_product, Finset.mem_Ico, and_assoc]

theorem inBounds_iff {W H : Int} {c : Cell} :
    inBounds W H c = true ↔ c ∈ grid W H := by
  simp [inBounds, mem_grid, and_assoc]

theorem grid_card (W H : Int) : (grid W H).card = W.toNat * H.toNat := by
  simp [grid, Finset.card_product]

theorem mem_initWalls {W H : Int} {w : Wall} :
    w ∈ initWalls W H ↔
      w.1 ∈ grid W H ∧ w.2 ∈ grid W H ∧
        (w.2 = (w.1.1 + 1, w.1.2) ∨ w.2 = (w.1.1, w.1.2 + 1)) := by
  obtain ⟨⟨ax, ay⟩, ⟨bx, bz⟩⟩ := w
  simp only [initWalls, Finset.mem_biUnion, Finset.mem_union]
  constructor
  · rintro ⟨⟨cx, cy⟩, hc, hw | hw⟩
    · by_cases hx : cx < W - 1
      · simp only [if_pos hx, Finset.mem_singleton, Prod.mk.injEq] at hw
        obtain ⟨⟨rfl, rfl⟩, rfl, rfl⟩ := hw
        simp only [mem_grid] at hc ⊢
        refine ⟨?_, ?_, Or.inl trivial⟩ <;> omega
      · simp [if_neg hx] at hw
    · by_cases hy : cy < H - 1
      · simp only [if_pos hy, Finset.mem_singleton, Prod.mk.injEq] at hw
        obtain ⟨⟨rfl, rfl⟩, rfl, rfl⟩ := hw
        simp only [mem_grid] at hc ⊢
        refine ⟨?_, ?_, Or.inr trivial⟩ <;> omega
      · simp [if_neg hy] at hw
  · rintro ⟨h1, h2, h3 | h3⟩ <;> simp only [Prod.mk.injEq] at h3
    · refine ⟨(ax, ay), h1, Or.inl ?_⟩
      have hx : ax < W - 1 := by
        simp only [mem_grid] at h2
        omega
      rw [if_pos hx]
      simp only [Finset.mem_singleton, Prod.mk.injEq]
      exact ⟨trivial, h3.1, h3.2⟩
    · refine ⟨(ax, ay), h1, Or.inr ?_⟩
      have hy : ay < H - 1 := by
        simp only [mem_grid] at h2
        omega
      rw [if_pos hy]
      simp only [Finset.mem_singleton, Prod.mk.injEq]
      exact ⟨trivial, h3.1, h3.2⟩

theorem initWalls_lt {W H : Int} {w : Wall} (h : w ∈ initWalls W H) :
    cellLt w.1 w.2 = true := by
  obtain ⟨⟨ax, ay⟩, ⟨bx, bz⟩⟩ := w
  rw [mem_initWalls] at h
  simp only [Prod.mk.injEq] at h
  rcases h.2.2 with h3 | h3 <;>
    · simp only [cellLt, Bool.or_eq_true, decide_eq_true_eq, Bool.and_eq_true]
      omega

theorem spanTree_root_mem {root : Cell} {v : Finset Cell} {p : Finset Wall}
    (h : SpanTree root v p) : root ∈ v := by
  induction h with
  | base => exact Finset.mem_singleton_self root
  | extend v p c n d hst hc hn hd hstep ih => exact Finset.mem_insert_of_mem ih

theorem spanTree_endpoints {root : Cell} {v : Finset Cell} {p : Finset Wall}
    (h : SpanTree root v p) : ∀ w ∈ p, w.1 ∈ v ∧ w.2 ∈ v := by
  induction h with
  | base => intro w hw; exact absurd hw (Finset.not_mem_empty w)
  | extend v p c n d hst hc hn hd hstep ih =>
    intro w hw
    rcases Finset.mem_insert.mp hw with rfl | hw
    · rcases sortPair_cases c n with h | h <;> rw [h] <;>
        exact ⟨by simp [Finset.mem_insert, hc], by simp [Finset.mem_insert, hc]⟩
    · exact ⟨Finset.mem_insert_of_mem (ih w hw).1,
        Finset.mem_insert_of_mem (ih w hw).2⟩

theorem spanTree_comp_mem {root : Cell} {v : Finset Cell} {p : Finset Wall}
    (h : SpanTree root v p) {x y : Cell} (hxy : sortPair x y ∈ p) :
    x ∈ v ∧ y ∈ v := by
  have hep := spanTree_endpoints h _ hxy
  have hx : x = (sortPair x y).1 ∨ x = (sortPair x y).2 :=
    (sortPair_fst_or_snd x y x).mpr (Or.inl rfl)
  have hy : y = (sortPair x y).1 ∨ y = (sortPair x y).2 :=
    (sortPair_fst_or_snd x y y).mpr (Or.inr rfl)
  constructor
  · rcases hx with h' | h' <;> rw [h'] <;> [exact hep.1; exact hep.2]
  · rcases hy with h' | h' <;> rw [h'] <;> [exact hep.1; exact hep.2]

theorem spanTree_card {root : Cell} {v : Finset Cell} {p : Finset Wall}
    (h : SpanTree root v p) : v.card = p.card + 1 := by
  induction h with
  | base => simp
  | extend v p c n d hst hc hn hd hstep ih =>
    have hwp : sortPair c n ∉ p := by
      intro hmem
      exact hn (spanTree_comp_mem hst hmem).2
    rw [Finset.card_insert_of_not_mem hn, Finset.card_insert_of_not_mem hwp, ih]

theorem spanTree_reach {root : Cell} {v : Finset Cell} {p : Finset Wall}
    (h : SpanTree root v p) : ∀ a ∈ v, ∀ b ∈ v,
      Relation.ReflTransGen (fun x y => sortPair x y ∈ p) a b := by
  induction h with
  | base =>
    intro a ha b hb
    rw [Finset.mem_singleton] at ha hb
    rw [ha, hb]
  | extend v p c n d hst hc hn hd hstep ih =>
    intro a ha b hb
    have mono :
        ∀ x y : Cell,
          Relation.ReflTransGen (fun x y => sortPair x y ∈ p) x y →
          Relation.ReflTransGen
            (fun x y => sortPair x y ∈ insert (sortPair c n) p) x y := by
      intro x y hxy
      exact Relation.ReflTransGen.mono
        (fun x y hm => Finset.mem_insert_of_mem hm) hxy
    have reduceX : ∀ x, x ∈ insert n v → ∃ y, y ∈ v ∧
        Relation.ReflTransGen
          (fun x y => sortPair x y ∈ insert (sortPair c n) p) x y ∧
        Relation.ReflTransGen
          (fun x y => sortPair x y ∈ insert (sortPair c n) p) y x := by
      intro x hx
      rcases Finset.mem_insert.mp hx with hx | hx
      · refine ⟨c, hc, ?_, ?_⟩
        · rw [hx]
          refine Relation.ReflTransGen.single ?_
          rw [sortPair_comm]
          exact Finset.mem_insert_self _ _
        · rw [hx]
          exact Relation.ReflTransGen.single (Finset.mem_insert_self _ _)
      · exact ⟨x, hx, Relation.ReflTransGen.refl, Relation.ReflTransGen.refl⟩
    obtain ⟨a1, ha1, haa, _⟩ := reduceX a ha
    obtain ⟨b1, hb1, _, hbb⟩ := reduceX b hb
    exact haa.trans ((mono _ _ (ih a1 ha1 b1 hb1)).trans hbb)

theorem adj_mem_initWalls {W H : Int} {ax ay bx bz : Int}
    (ha : ((ax, ay) : Cell) ∈ grid W H) (hb : ((bx, bz) : Cell) ∈ grid W H)
    (hadj : (bx = ax + 1 ∧ bz = ay) ∨ (bx = ax ∧ bz = ay + 1) ∨
            (ax = bx + 1 ∧ ay = bz) ∨ (ax = bx ∧ ay = bz + 1)) :
    sortPair (ax, ay) (bx, bz) ∈ initWalls W H := by
  rcases hadj with ⟨h1, h2⟩ | ⟨h1, h2⟩ | ⟨h1, h2⟩ | ⟨h1, h2⟩
  · have hle : cellLe (ax, ay) (bx, bz) = true := by
      simp only [cellLe, Bool.or_eq_true, decide_eq_true_eq, Bool.and_eq_true]
      omega
    rw [sortPair, if_pos hle, mem_initWalls]
    refine ⟨ha, hb, Or.inl ?_⟩
    simp only [Prod.mk.injEq]
    omega
  · have hle : cellLe (ax, ay) (bx, bz) = true := by
      simp only [cellLe, Bool.or_eq_true, decide_eq_true_eq, Bool.and_eq_true]
      omega
    rw [sortPair, if_pos hle, mem_initWalls]
    refine ⟨ha, hb, Or.inr ?_⟩
    simp only [Prod.mk.injEq]
    omega
  · have hle : cellLe (ax, ay) (bx, bz) = false := by
      simp only [cellLe, Bool.or_eq_false_iff, Bool.and_eq_false_iff,
        decide_eq_false_iff_not]
      exact ⟨by omega, Or.inl (by omega)⟩
    rw [sortPair, if_neg (by simp [hle]), mem_initWalls]
    refine ⟨hb, ha, Or.inl ?_⟩
    simp only [Prod.mk.injEq]
    omega
  · have hle : cellLe (ax, ay) (bx, bz) = false := by
      simp only [cellLe, Bool.or_eq_false_iff, Bool.and_eq_false_iff,
        decide_eq_false_iff_not]
      exact ⟨by omega, Or.inr (by omega)⟩
    rw [sortPair, if_neg (by simp [hle]), mem_initWalls]
    refine ⟨hb, ha, Or.inr ?_⟩
    simp only [Prod.mk.injEq]
    omega

theorem step_mem_initWalls {W H : Int} {c : Cell} {d : Int × Int}
    (hc : c ∈ grid W H) (hd : d ∈ genDirs) (hn : stepCell c d ∈ grid W H) :
    sortPair c (stepCell c d) ∈ initWalls W H := by
  obtain ⟨cx, cy⟩ := c
  simp only [genDirs, List.mem_cons, List.not_mem_nil, or_false] at hd
  rcases hd with rfl | rfl | rfl | rfl <;>
    simp only [stepCell] at hn ⊢ <;>
    refine adj_mem_initWalls hc hn ?_ <;>
    omega

theorem grid_closure {W H : Int} {S : Finset Cell}
    (hS : ∀ x ∈ S, ∀ d ∈ genDirs,
      inBounds W H (stepCell x d) = true → stepCell x d ∈ S)
    (h0 : ((0, 0) : Cell) ∈ S) : ∀ c ∈ grid W H, c ∈ S := by
  intro c hc
  obtain ⟨cx, cy⟩ := c
  rw [mem_grid] at hc
  obtain ⟨h1, h2, h3, h4⟩ := hc
  suffices h : ∀ n : ℕ, ∀ cx cy : Int, (cx + cy).toNat ≤ n →
      0 ≤ cx → cx < W → 0 ≤ cy → cy < H → ((cx, cy) : Cell) ∈ S by
    exact h (cx + cy).toNat cx cy le_rfl h1 h2 h3 h4
  intro n
  induction n with
  | zero =>
    intro cx cy hle h1 h2 h3 h4
    have hx0 : cx = 0 ∧ cy = 0 := by omega
    rw [hx0.1, hx0.2]
    exact h0
  | succ n IH =>
    intro cx cy hle h1 h2 h3 h4
    by_cases hcx : cx = 0
    · by_cases hcy : cy = 0
      · rw [hcx, hcy]; exact h0
      · have hprev : ((cx, cy - 1) : Cell) ∈ S := by
          refine IH cx (cy - 1) (by omega) h1 h2 (by omega) (by omega)
        have hstep := hS _ hprev (0, 1) (by simp [genDirs])
          (by rw [inBounds_iff, mem_grid]; simp only [stepCell]; constructor;
              omega; constructor; omega; constructor; omega; omega)
        have heq : stepCell (cx, cy - 1) (0, 1) = ((cx, cy) : Cell) := by
          simp only [stepCell, Prod.mk.injEq]
          omega
        rwa [heq] at hstep
    · have hprev : ((cx - 1, cy) : Cell) ∈ S := by
        refine IH (cx - 1) cy (by omega) (by omega) (by omega) h3 h4
      have hstep := hS _ hprev (1, 0) (by simp [genDirs])
        (by rw [inBounds_iff, mem_grid]; simp only [stepCell]; constructor;
            omega; constructor; omega; constructor; omega; omega)
      have heq : stepCell (cx - 1, cy) (1, 0) = ((cx, cy) : Cell) := by
        simp only [stepCell, Prod.mk.injEq]
        omega
      rwa [heq] at hstep

theorem passages_erase {W H : Int} {s : GenState} {w : Wall}
    (hw : w ∈ initWalls W H) :
    passages W H { s with walls := s.walls.erase w } =
      insert w (passages W H s) := by
  ext x
  by_cases hxw : x = w <;>
    simp [passages, Finset.mem_sdiff, Finset.mem_erase, Finset.mem_insert,
      hxw, hw] <;>
    tauto

theorem carveDirs_spec (W H : Int) (fuel : ℕ)
    (step : Cell → GenState → GenState)
    (hstep : ∀ n : Cell, ∀ s : GenState, ∀ root : Cell,
      s.walls ⊆ initWalls W H →
      s.visited ⊆ grid W H →
      n ∈ grid W H →
      n ∉ s.visited →
      (grid W H).card ≤ fuel + s.visited.card →
      (∀ w ∈ initWalls W H,
        (w.1 ∉ insert n s.visited ∨ w.2 ∉ insert n s.visited) →
        w ∈ s.walls) →
      SpanTree root (insert n s.visited) (passages W H s) →
      (step n s).walls ⊆ s.walls ∧
      insert n s.visited ⊆ (step n s).visited ∧
      (step n s).visited ⊆ grid W H ∧
      (∀ w ∈ initWalls W H,
        (w.1 ∉ (step n s).visited ∨ w.2 ∉ (step n s).visited) →
        w ∈ (step n s).walls) ∧
      SpanTree root (step n s).visited (passages W H (step n s)) ∧
      (∀ x ∈ (step n s).visited, x ∉ s.visited →
        ∀ d ∈ genDirs, inBounds W H (stepCell x d) = true →
          stepCell x d ∈ (step n s).visited)) :
    ∀ ds : List (Int × Int), (∀ d ∈ ds, d ∈ genDirs) →
    ∀ cell : Cell, ∀ s : GenState, ∀ root : Cell,
    s.walls ⊆ initWalls W H →
    s.visited ⊆ grid W H →
    cell ∈ grid W H →
    cell ∈ s.visited →
    (grid W H).card ≤ fuel + s.visited.card →
    (∀ w ∈ initWalls W H, (w.1 ∉ s.visited ∨ w.2 ∉ s.visited) → w ∈ s.walls) →
    SpanTree root s.visited (passages W H s) →
    (carveDirs W H step cell ds s).walls ⊆ s.walls ∧
    s.visited ⊆ (carveDirs W H step cell ds s).visited ∧
    (carveDirs W H step cell ds s).visited ⊆ grid W H ∧
    (∀ w ∈ initWalls W H,
      (w.1 ∉ (carveDirs W H step cell ds s).visited ∨
       w.2 ∉ (carveDirs W H step cell ds s).visited) →
      w ∈ (carveDirs W H step cell ds s).walls) ∧
    SpanTree root (carveDirs W H step cell ds s).visited
      (passages W H (carveDirs W H step cell ds s)) ∧
    (∀ x ∈ (carveDirs W H step cell ds s).visited, x ∉ s.visited →
      ∀ d ∈ genDirs, inBounds W H (stepCell x d) = true →
        stepCell x d ∈ (carveDirs W H step cell ds s).visited) ∧
    (∀ d ∈ ds, inBounds W H (stepCell cell d) = true →
      stepCell cell d ∈ (carveDirs W H step cell ds s).visited) := by
  intro ds
  induction ds with
  | nil =>
    intro _ cell s root hw hv hcg hcv hfuel hinvw hst
    refine ⟨Finset.Subset.refl _, Finset.Subset.refl _, hv, hinvw, hst, ?_, ?_⟩
    · intro x hx hxn
      exact absurd hx hxn
    · intro d hd
      exact absurd hd (List.not_mem_nil d)
  | cons d ds ih =>
    intro hds cell s root hw hv hcg hcv hfuel hinvw hst
    have hd : d ∈ genDirs := hds d (List.mem_cons_self d ds)
    have hds' : ∀ d' ∈ ds, d' ∈ genDirs :=
      fun d' hd' => hds d' (List.mem_cons_of_mem d hd')
    rw [carveDirs]
    by_cases hcond : inBounds W H (stepCell cell d) = true ∧
        stepCell cell d ∉ s.visited
    · rw [if_pos hcond]
      obtain ⟨hbn, hnv⟩ := hcond
      set n := stepCell cell d with hn_def
      have hng : n ∈ grid W H := inBounds_iff.mp hbn
      have hwall : sortPair cell n ∈ initWalls W H :=
        step_mem_initWalls hcg hd hng
      set s2 : GenState :=
        { s with walls := s.walls.erase (sortPair cell n) } with hs2_def
      have hsub2 : s2.walls ⊆ s.walls := Finset.erase_subset _ _
      have hstepc := hstep n s2 root
        (hsub2.trans hw) hv hng hnv
        hfuel
        (by
          intro w hwi hout
          refine Finset.mem_erase.mpr ⟨?_, hinvw w hwi ?_⟩
          · rintro rfl
            rcases hout with hout | hout
            · rcases (sortPair_fst_or_snd cell n (sortPair cell n).1).mp
                (Or.inl rfl) with he | he
              · exact hout (by rw [he]; exact Finset.mem_insert_of_mem hcv)
              · exact hout (by rw [he]; exact Finset.mem_insert_self _ _)
            · rcases (sortPair_fst_or_snd cell n (sortPair cell n).2).mp
                (Or.inr rfl) with he | he
              · exact hout (by rw [he]; exact Finset.mem_insert_of_mem hcv)
              · exact hout (by rw [he]; exact Finset.mem_insert_self _ _)
          · rcases hout with hout | hout
            · exact Or.inl fun hmem => hout (Finset.mem_insert_of_mem hmem)
            · exact Or.inr fun hmem => hout (Finset.mem_insert_of_mem hmem))
        (by
          rw [hs2_def, passages_erase hwall]
          exact SpanTree.extend s.visited (passages W H s) cell n d hst hcv
            hnv hd rfl)
      obtain ⟨hc1, hc2, hc3, hc4, hc5, hc6⟩ := hstepc
      set s3 : GenState := step n s2 with hs3_def
      have hvmono : s.visited ⊆ s3.visited := by
        intro x hx
        exact hc2 (Finset.mem_insert_of_mem hx)
      have ihc := ih hds' cell s3 root
        (hc1.trans (hsub2.trans hw)) hc3 hcg (hvmono hcv)
        (le_trans hfuel (by
          have := Finset.card_le_card hvmono
          omega))
        hc4 hc5
      obtain ⟨ic1, ic2, ic3, ic4, ic5, ic6, ic7⟩ := ihc
      refine ⟨ic1.trans (hc1.trans hsub2), hvmono.trans ic2, ic3, ic4, ic5,
        ?_, ?_⟩
      · intro x hx hxs
        by_cases hx3 : x ∈ s3.visited
        · intro d' hd' hb'
          exact ic2 (hc6 x hx3 hxs d' hd' hb')
        · exact ic6 x hx hx3
      · intro d' hd' hb'
        rcases List.mem_cons.mp hd' with rfl | hd'
        · exact ic2 (hc2 (Finset.mem_insert_self _ _))
        · exact ic7 d' hd' hb'
    · rw [if_neg hcond]
      have ihc := ih hds' cell s root hw hv hcg hcv hfuel hinvw hst
      obtain ⟨ic1, ic2, ic3, ic4, ic5, ic6, ic7⟩ := ihc
      refine ⟨ic1, ic2, ic3, ic4, ic5, ic6, ?_⟩
      intro d' hd' hb'
      rcases List.mem_cons.mp hd' with rfl | hd'
      · have hmem : stepCell cell d' ∈ s.visited := by
          by_contra hcon
          exact hcond ⟨hb', hcon⟩
        exact ic2 hmem
      · exact ic7 d' hd' hb'

theorem carve_spec (W H : Int) (rng : ℕ → List (Int × Int))
    (hrng : ∀ k, (rng k).Perm genDirs) :
    ∀ fuel : ℕ, ∀ cell : Cell, ∀ s : GenState, ∀ root : Cell,
    s.walls ⊆ initWalls W H →
    s.visited ⊆ grid W H →
    cell ∈ grid W H →
    cell ∉ s.visited →
    (grid W H).card ≤ fuel + s.visited.card →
    (∀ w ∈ initWalls W H,
      (w.1 ∉ insert cell s.visited ∨ w.2 ∉ insert cell s.visited) →
      w ∈ s.walls) →
    SpanTree root (insert cell s.visited) (passages W H s) →
    (carve W H rng fuel cell s).walls ⊆ s.walls ∧
    insert cell s.visited ⊆ (carve W H rng fuel cell s).visited ∧
    (carve W H rng fuel cell s).visited ⊆ grid W H ∧
    (∀ w ∈ initWalls W H,
      (w.1 ∉ (carve W H rng fuel cell s).visited ∨
       w.2 ∉ (carve W H rng fuel cell s).visited) →
      w ∈ (carve W H rng fuel cell s).walls) ∧
    SpanTree root (carve W H rng fuel cell s).visited
      (passages W H (carve W H rng fuel cell s)) ∧
    (∀ x ∈ (carve W H rng fuel cell s).visited, x ∉ s.visited →
      ∀ d ∈ genDirs, inBounds W H (stepCell x d) = true →
        stepCell x d ∈ (carve W H rng fuel cell s).visited) := by
  intro fuel
  induction fuel with
  | zero =>
    intro cell s root hw hv hcg hcv hfuel hinvw hst
    exfalso
    have hss : s.visited ⊂ grid W H :=
      (Finset.ssubset_iff_of_subset hv).mpr ⟨cell, hcg, hcv⟩
    have := Finset.card_lt_card hss
    omega
  | succ fuel IH =>
    intro cell s root hw hv hcg hcv hfuel hinvw hst
    rw [carve]
    set s1 : GenState :=
      { s with visited := insert cell s.visited, ctr := s.ctr + 1 }
      with hs1_def
    have hv1 : s1.visited ⊆ grid W H := by
      intro x hx
      rcases Finset.mem_insert.mp hx with rfl | hx
      · exact hcg
      · exact hv hx
    have hcard1 : s1.visited.card = s.visited.card + 1 :=
      Finset.card_insert_of_not_mem hcv
    have hdirs := carveDirs_spec W H fuel (carve W H rng fuel)
      (fun n s' root' => IH n s' root')
      (rng s.ctr)
      (fun d hd => ((hrng s.ctr).mem_iff).mp hd)
      cell s1 root
      hw hv1 hcg (Finset.mem_insert_self _ _)
      (by omega)
      hinvw hst
    obtain ⟨dc1, dc2, dc3, dc4, dc5, dc6, dc7⟩ := hdirs
    refine ⟨dc1, dc2, dc3, dc4, dc5, ?_⟩
    intro x hx hxs
    by_cases hxc : x = cell
    · subst hxc
      intro d hd hb
      exact dc7 d (((hrng s.ctr).mem_iff).mpr hd) hb
    · refine dc6 x hx ?_
      intro hmem
      rcases Finset.mem_insert.mp hmem with h | h
      · exact hxc h
      · exact hxs h

theorem carveDirs_all_visited {W H : Int}
    (step : Cell → GenState → GenState) (cell : Cell) (ds : List (Int × Int))
    (s : GenState)
    (h : ∀ d ∈ ds, inBounds W H (stepCell cell d) = true →
      stepCell cell d ∈ s.visited) :
    carveDirs W H step cell ds s = s := by
  induction ds with
  | nil => rfl
  | cons d ds ih =>
    rw [carveDirs]
    have hcond : ¬(inBounds W H (stepCell cell d) = true ∧
        stepCell cell d ∉ s.visited) := by
      rintro ⟨hb, hnv⟩
      exact hnv (h d (List.mem_cons_self d ds) hb)
    rw [if_neg hcond]
    exact ih fun d' hd' => h d' (List.mem_cons_of_mem d hd')

theorem carve_all_visited {W H : Int} (rng : ℕ → List (Int × Int))
    (fuel : ℕ) (cell : Cell) (s : GenState)
    (h : ∀ x : Cell, inBounds W H x = true → x ∈ s.visited) :
    carve W H rng (fuel + 1) cell s =
      { s with visited := insert cell s.visited, ctr := s.ctr + 1 } := by
  rw [carve]
  exact carveDirs_all_visited _ _ _ _ fun d hd hb => by
    simp only [Finset.mem_insert]
    exact Or.inr (h _ hb)

theorem getLast?_mem_self {l : List Cell} {b : Cell}
    (h : l.getLast? = some b) : b ∈ l := by
  induction l with
  | nil => simp at h
  | cons x t ih =>
    cases t with
    | nil =>
      simp only [List.getLast?_singleton, Option.some.injEq] at h
      rw [← h]
      exact List.mem_singleton_self x
    | cons y u =>
      rw [List.getLast?_cons_cons] at h
      exact List.mem_cons_of_mem x (ih h)

theorem getLast?_cons_ne_nil {a : Cell} {l : List Cell} (h : l ≠ []) :
    (a :: l).getLast? = l.getLast? := by
  cases l with
  | nil => exact absurd rfl h
  | cons y u => exact List.getLast?_cons_cons

theorem simplePath_reverse {P : Finset Wall} {a b : Cell} {l : List Cell}
    (h : SimplePath P a b l) : SimplePath P b a l.reverse := by
  obtain ⟨h1, h2, h3, h4⟩ := h
  refine ⟨?_, ?_, List.nodup_reverse.mpr h3, ?_⟩
  · rw [List.head?_reverse]
    exact h2
  · rw [List.getLast?_reverse]
    exact h1
  · rw [List.chain'_reverse]
    refine List.Chain'.imp ?_ h4
    intro x y hxy
    show sortPair y x ∈ P
    rw [sortPair_comm y x]
    exact hxy

theorem simplePath_self {P : Finset Wall} {a : Cell} {l : List Cell}
    (h : SimplePath P a a l) : l = [a] := by
  obtain ⟨h1, h2, h3, _⟩ := h
  cases l with
  | nil => simp at h1
  | cons x t =>
    simp only [List.head?_cons, Option.some.injEq] at h1
    subst h1
    cases t with
    | nil => rfl
    | cons y u =>
      exfalso
      rw [List.getLast?_cons_cons] at h2
      have hmem : x ∈ y :: u := getLast?_mem_self h2
      simp only [List.nodup_cons] at h3
      exact h3.1 hmem

theorem chain_support {root : Cell} {v : Finset Cell} {p : Finset Wall}
    (hst : SpanTree root v p) :
    ∀ l : List Cell, l.Chain' (fun x y => sortPair x y ∈ p) →
      ∀ a, l.head? = some a → a ∈ v → ∀ x ∈ l, x ∈ v := by
  intro l
  induction l with
  | nil =>
    intro _ _ _ _ x hx
    exact absurd hx (List.not_mem_nil x)
  | cons z t ih =>
    intro hchain a ha hav x hx
    simp only [List.head?_cons, Option.some.injEq] at ha
    subst ha
    rcases List.mem_cons.mp hx with rfl | hx
    · exact hav
    · cases t with
      | nil => exact absurd hx (List.not_mem_nil x)
      | cons y u =>
        rw [List.chain'_cons] at hchain
        have hyv : y ∈ v := (spanTree_comp_mem hst hchain.1).2
        exact ih hchain.2 y rfl hyv x hx

theorem edge_at_new {root : Cell} {v : Finset Cell} {p : Finset Wall}
    {c n : Cell} (hst : SpanTree root v p) (hc : c ∈ v) (hn : n ∉ v) :
    ∀ x, sortPair x n ∈ insert (sortPair c n) p → x = c := by
  intro x hx
  rcases Finset.mem_insert.mp hx with he | he
  · rcases sortPair_eq_iff he with ⟨h1, _⟩ | ⟨_, h2⟩
    · exact h1
    · exfalso
      refine hn ?_
      rw [h2]
      exact hc
  · exfalso
    exact hn (spanTree_comp_mem hst he).2

theorem edge_at_new' {root : Cell} {v : Finset Cell} {p : Finset Wall}
    {c n : Cell} (hst : SpanTree root v p) (hc : c ∈ v) (hn : n ∉ v) :
    ∀ x, sortPair n x ∈ insert (sortPair c n) p → x = c := by
  intro x hx
  refine edge_at_new hst hc hn x ?_
  rw [sortPair_comm x n]
  exact hx

theorem chain_upgrade {p : Finset Wall} {c n : Cell} :
    ∀ l : List Cell, n ∉ l →
      l.Chain' (fun x y => sortPair x y ∈ insert (sortPair c n) p) →
      l.Chain' (fun x y => sortPair x y ∈ p) := by
  intro l
  induction l with
  | nil => intro _ _; exact List.chain'_nil
  | cons z t ih =>
    intro hnl hch
    rw [List.chain'_cons'] at hch ⊢
    refine ⟨?_, ih (fun hmem => hnl (List.mem_cons_of_mem z hmem)) hch.2⟩
    intro y hy
    have hyR := hch.1 y hy
    rcases Finset.mem_insert.mp hyR with he | he
    · exfalso
      rcases sortPair_eq_iff he with ⟨_, h2⟩ | ⟨h1, _⟩
      · exact hnl (List.mem_cons_of_mem z (h2 ▸ List.mem_of_mem_head? hy))
      · exact hnl (h1 ▸ List.mem_cons_self z t)
    · exact he

theorem path_avoids_new {root : Cell} {v : Finset Cell} {p : Finset Wall}
    {c n : Cell} (hst : SpanTree root v p) (hc : c ∈ v) (hn : n ∉ v) :
    ∀ l a b, SimplePath (insert (sortPair c n) p) a b l → a ≠ n → b ≠ n →
      n ∉ l ∧ l.Chain' (fun x y => sortPair x y ∈ p) := by
  intro l a b hsp han hbn
  obtain ⟨h1, h2, h3, h4⟩ := hsp
  have hnl : n ∉ l := by
    intro hmem
    obtain ⟨l₁, l₂, rfl⟩ := List.append_of_mem hmem
    have hl1 : l₁ ≠ [] := by
      rintro rfl
      simp only [List.nil_append, List.head?_cons, Option.some.injEq] at h1
      exact han h1.symm
    cases l₂ with
    | nil =>
      rw [List.getLast?_concat] at h2
      simp only [Option.some.injEq] at h2
      exact hbn h2.symm
    | cons y u =>
      rw [List.chain'_append] at h4
      obtain ⟨hchain1, hchain2, hlink⟩ := h4
      have hx : l₁.getLast? = some (l₁.getLast hl1) :=
        List.getLast?_eq_getLast_of_ne_nil hl1
      have hRxn : sortPair (l₁.getLast hl1) n ∈ insert (sortPair c n) p :=
        hlink _ (Option.mem_def.mpr hx) n (Option.mem_def.mpr rfl)
      have hxc : l₁.getLast hl1 = c := edge_at_new hst hc hn _ hRxn
      rw [List.chain'_cons] at hchain2
      have hyc : y = c := edge_at_new' hst hc hn y hchain2.1
      rw [List.nodup_append] at h3
      obtain ⟨_, _, hdisj⟩ := h3
      have hcl1 : c ∈ l₁ := by
        rw [← hxc]
        exact List.getLast_mem hl1
      have hcl2 : c ∈ n :: y :: u := by
        rw [← hyc]
        exact List.mem_cons_of_mem _ (List.mem_cons_self y u)
      exact hdisj hcl1 hcl2
  exact ⟨hnl, chain_upgrade l hnl h4⟩

theorem peel_head {root : Cell} {v : Finset Cell} {p : Finset Wall}
    {c n : Cell} (hst : SpanTree root v p) (hc : c ∈ v) (hn : n ∉ v) :
    ∀ b l, SimplePath (insert (sortPair c n) p) n b l → b ≠ n →
      ∃ r, l = n :: r ∧ SimplePath p c b r := by
  intro b l hsp hbn
  obtain ⟨h1, h2, h3, h4⟩ := hsp
  cases l with
  | nil => simp at h1
  | cons z r =>
    simp only [List.head?_cons, Option.some.injEq] at h1
    subst h1
    refine ⟨r, rfl, ?_⟩
    simp only [List.nodup_cons] at h3
    cases r with
    | nil =>
      exfalso
      simp only [List.getLast?_singleton, Option.some.injEq] at h2
      exact hbn h2.symm
    | cons y u =>
      rw [List.chain'_cons] at h4
      have hyc : y = c := edge_at_new' hst hc hn y h4.1
      have hch : (y :: u).Chain' (fun x y => sortPair x y ∈ p) :=
        chain_upgrade _ h3.1 h4.2
      refine ⟨?_, ?_, h3.2, hch⟩
      · rw [List.head?_cons, hyc]
      · rw [List.getLast?_cons_cons] at h2
        exact h2

theorem spanTree_path_unique {root : Cell} :
    ∀ {v : Finset Cell} {p : Finset Wall}, SpanTree root v p →
    ∀ a b l₁ l₂, SimplePath p a b l₁ → SimplePath p a b l₂ → l₁ = l₂ := by
  intro v p hst
  induction hst with
  | base =>
    intro a b l₁ l₂ h1 h2
    have key : ∀ l, SimplePath (∅ : Finset Wall) a b l → l = [a] := by
      intro l hl
      obtain ⟨hh, hlast, hnd, hch⟩ := hl
      cases l with
      | nil => simp at hh
      | cons x t =>
        simp only [List.head?_cons, Option.some.injEq] at hh
        subst hh
        cases t with
        | nil => rfl
        | cons y u =>
          rw [List.chain'_cons] at hch
          exact absurd hch.1 (Finset.not_mem_empty _)
    rw [key l₁ h1, key l₂ h2]
  | extend v p c n d hst hc hn hd hstep ih =>
    intro a b l₁ l₂ h1 h2
    by_cases hab : a = b
    · subst hab
      rw [simplePath_self h1, simplePath_self h2]
    by_cases han : a = n
    · subst han
      obtain ⟨r₁, hr₁, hp₁⟩ := peel_head hst hc hn b l₁ h1 (fun h => hab h.symm)
      obtain ⟨r₂, hr₂, hp₂⟩ := peel_head hst hc hn b l₂ h2 (fun h => hab h.symm)
      rw [hr₁, hr₂, ih c b r₁ r₂ hp₁ hp₂]
    by_cases hbn : b = n
    · subst hbn
      have h1r := simplePath_reverse h1
      have h2r := simplePath_reverse h2
      obtain ⟨r₁, hr₁, hp₁⟩ := peel_head hst hc hn a l₁.reverse h1r han
      obtain ⟨r₂, hr₂, hp₂⟩ := peel_head hst hc hn a l₂.reverse h2r han
      have : l₁.reverse = l₂.reverse := by
        rw [hr₁, hr₂, ih c a r₁ r₂ hp₁ hp₂]
      exact List.reverse_injective this
    · have ha1 := path_avoids_new hst hc hn l₁ a b h1 han hbn
      have ha2 := path_avoids_new hst hc hn l₂ a b h2 han hbn
      exact ih a b l₁ l₂
        ⟨h1.1, h1.2.1, h1.2.2.1, ha1.2⟩
        ⟨h2.1, h2.2.1, h2.2.2.1, ha2.2⟩

theorem spanTree_path_exists {root : Cell} :
    ∀ {v : Finset Cell} {p : Finset Wall}, SpanTree root v p →
    ∀ a ∈ v, ∀ b ∈ v, ∃ l, SimplePath p a b l := by
  intro v p hst
  induction hst with
  | base =>
    intro a ha b hb
    rw [Finset.mem_singleton] at ha hb
    rw [ha, hb]
    exact ⟨[root], by simp [SimplePath]⟩
  | extend v p c n d hst hc hn hd hstep ih =>
    intro a ha b hb
    have lift : ∀ l x y, SimplePath p x y l →
        SimplePath (insert (sortPair c n) p) x y l := by
      rintro l x y ⟨m1, m2, m3, m4⟩
      exact ⟨m1, m2, m3,
        List.Chain'.imp (fun x y hxy => Finset.mem_insert_of_mem hxy) m4⟩
    have build : ∀ b ∈ v, ∃ l, SimplePath (insert (sortPair c n) p) n b l := by
      intro b hbv
      obtain ⟨r, hr⟩ := ih c hc b hbv
      have hrne : r ≠ [] := by
        intro h
        rw [h] at hr
        simp [SimplePath] at hr
      have hnr : n ∉ r := by
        intro hmem
        exact hn (chain_support hst r hr.2.2.2 c hr.1 hc n hmem)
      refine ⟨n :: r, ?_, ?_, ?_, ?_⟩
      · rfl
      · rw [getLast?_cons_ne_nil hrne]
        exact hr.2.1
      · exact List.nodup_cons.mpr ⟨hnr, hr.2.2.1⟩
      · rw [List.chain'_cons']
        refine ⟨?_, (lift r c b hr).2.2.2⟩
        intro y hy
        have hyc : y = c := by
          rw [Option.mem_def, hr.1] at hy
          simp only [Option.some.injEq] at hy
          exact hy.symm
        rw [hyc, sortPair_comm c n]
        exact Finset.mem_insert_self _ _
    rcases Finset.mem_insert.mp ha with hae | hav
    · rw [hae]
      rcases Finset.mem_insert.mp hb with hbe | hbv
      · rw [hbe]
        exact ⟨[n], by simp [SimplePath]⟩
      · exact build b hbv
    · rcases Finset.mem_insert.mp hb with hbe | hbv
      · rw [hbe]
        obtain ⟨l, hl⟩ := build a hav
        exact ⟨l.reverse, simplePath_reverse hl⟩
      · obtain ⟨l, hl⟩ := ih a hav b hbv
        exact ⟨l, lift l a b hl⟩

theorem generate_spec (W H : Int) (rng : ℕ → List (Int × Int))
    (hrng : ∀ k, (rng k).Perm genDirs) (hW : 1 ≤ W) (hH : 1 ≤ H) :
    (generate W H rng genInit).walls ⊆ initWalls W H ∧
    (generate W H rng genInit).visited = grid W H ∧
    SpanTree (0, 0) (grid W H) (passages W H (generate W H rng genInit)) := by
  have h00 : ((0, 0) : Cell) ∈ grid W H := by
    rw [mem_grid]
    exact ⟨le_refl 0, by omega, le_refl 0, by omega⟩
  set s0 : GenState :=
    { genInit with walls := genInit.walls ∪ initWalls W H } with hs0_def
  have hs0w : s0.walls = initWalls W H := by
    simp [hs0_def, genInit]
  have hps0 : passages W H s0 = ∅ := by
    simp [passages, hs0w]
  have hspec := carve_spec W H rng hrng (genFuel W H) (0, 0) s0 (0, 0)
    (by rw [hs0w])
    (by simp [hs0_def, genInit])
    h00
    (by simp [hs0_def, genInit])
    (by
      rw [grid_card, genFuel]
      simp [hs0_def, genInit])
    (by intro w hwi _; rw [hs0w]; exact hwi)
    (by rw [hps0]; exact SpanTree.base)
  obtain ⟨hc1, hc2, hc3, hc4, hc5, hc6⟩ := hspec
  have hgen : generate W H rng genInit = carve W H rng (genFuel W H) (0, 0) s0 := rfl
  rw [hgen]
  have hveq : (carve W H rng (genFuel W H) (0, 0) s0).visited = grid W H := by
    apply Finset.Subset.antisymm hc3
    intro c hc
    refine grid_closure ?_ ?_ c hc
    · intro x hx d hd hb
      refine hc6 x hx ?_ d hd hb
      simp [hs0_def, genInit]
    · exact hc2 (Finset.mem_insert_self _ _)
  refine ⟨hc1.trans (by rw [hs0w]), hveq, ?_⟩
  rw [← hveq]
  exact hc5

/-- **C10** (confirmed).  After a first `generate()` on a fresh
`MazeGenerator`, the `visited` set holds every cell, so a second
`generate()` on the same object re-adds every interior wall and carves
nothing: it returns the complete wall set, with no passages at all. -/
theorem generate_twice_full_walls (W H : Int) (rng1 rng2 : ℕ → List (Int × Int))
    (hrng1 : ∀ k, (rng1 k).Perm genDirs) (hW : 1 ≤ W) (hH : 1 ≤ H)
    (hWH : 1 < W * H) :
    (generate W H rng2 (generate W H rng1 genInit)).walls = initWalls W H ∧
    passages W H (generate W H rng2 (generate W H rng1 genInit)) = ∅ := by
  obtain ⟨hw1, hv1, _⟩ := generate_spec W H rng1 hrng1 hW hH
  set s1 : GenState := generate W H rng1 genInit with hs1_def
  set s2 : GenState := { s1 with walls := s1.walls ∪ initWalls W H }
    with hs2_def
  have hs2w : s2.walls = initWalls W H := by
    rw [hs2_def]
    exact Finset.union_eq_right.mpr hw1
  have hgen2 : generate W H rng2 s1 = carve W H rng2 (genFuel W H) (0, 0) s2 :=
    rfl
  have hall : ∀ x : Cell, inBounds W H x = true → x ∈ s2.visited := by
    intro x hx
    have : s2.visited = grid W H := hv1
    rw [this]
    exact inBounds_iff.mp hx
  have hcarve := @carve_all_visited W H rng2
    (W.toNat * H.toNat) (0, 0) s2 hall
  have hfuel_eq : genFuel W H = W.toNat * H.toNat + 1 := rfl
  constructor
  · rw [hgen2, hfuel_eq, hcarve]
    exact hs2w
  · rw [passages, hgen2, hfuel_eq, hcarve]
    simp [hs2w]

/-- **C1** (confirmed).  For any `width, height ≥ 1` and any outcome of
the `random.shuffle` stream, the passage-graph left by `generate()` on a
fresh generator is a spanning tree of the `width*height` grid cells: it
has exactly `width*height - 1` passages (stated additively), and between
any two cells there is exactly one simple path — which packages
connectivity (existence) and acyclicity (uniqueness). -/
theorem maze_spanning_tree (W H : Int) (rng : ℕ → List (Int × Int))
    (hrng : ∀ k, (rng k).Perm genDirs) (hW : 1 ≤ W) (hH : 1 ≤ H) :
    (passages W H (generate W H rng genInit)).card + 1 =
      W.toNat * H.toNat ∧
    ∀ a ∈ grid W H, ∀ b ∈ grid W H,
      ∃! l : List Cell,
        SimplePath (passages W H (generate W H rng genInit)) a b l := by
  obtain ⟨_, _, hst⟩ := generate_spec W H rng hrng hW hH
  constructor
  · have hcard := spanTree_card hst
    rw [grid_card] at hcard
    omega
  · intro a ha b hb
    obtain ⟨l, hl⟩ := spanTree_path_exists hst a ha b hb
    exact ⟨l, hl, fun l' hl' => spanTree_path_unique hst a b l' l hl' hl⟩

/-- Witness for `maze_spanning_tree` on a concrete 2×2 grid with the
identity shuffle stream. -/
theorem maze_spanning_tree_witness :
    (passages 2 2 (generate 2 2 (fun _ => genDirs) genInit)).card + 1 =
      (2 : Int).toNat * (2 : Int).toNat ∧
    ∀ a ∈ grid 2 2, ∀ b ∈ grid 2 2,
      ∃! l : List Cell,
        SimplePath (passages 2 2 (generate 2 2 (fun _ => genDirs) genInit))
          a b l :=
  maze_spanning_tree 2 2 (fun _ => genDirs) (fun _ => List.Perm.refl _)
    (by norm_num) (by norm_num)

/-- Witness for `generate_twice_full_walls` on a concrete 2×1 grid. -/
theorem generate_twice_full_walls_witness :
    (generate 2 1 (fun _ => genDirs)
        (generate 2 1 (fun _ => genDirs) genInit)).walls = initWalls 2 1 ∧
    passages 2 1 (generate 2 1 (fun _ => genDirs)
        (generate 2 1 (fun _ => genDirs) genInit)) = ∅ :=
  generate_twice_full_walls 2 1 (fun _ => genDirs) (fun _ => genDirs)
    (fun _ => List.Perm.refl _) (by norm_num) (by norm_num) (by norm_num)

theorem look_cons {α : Type} (k : Cell) (v : α) (l : List (Cell × α))
    (c : Cell) :
    look ((k, v) :: l) c = if c = k then some v else look l c := rfl

theorem look_isSome_mem_keys {α : Type} :
    ∀ (l : List (Cell × α)) (c : Cell),
      (look l c).isSome → c ∈ l.map Prod.fst := by
  intro l
  induction l with
  | nil =>
    intro c h
    simp [look] at h
  | cons kv rest ih =>
    intro c h
    obtain ⟨k, v⟩ := kv
    rw [look_cons] at h
    by_cases hc : c = k
    · rw [hc]
      exact List.mem_cons_self _ _
    · rw [if_neg hc] at h
      exact List.mem_cons_of_mem _ (ih c h)

theorem foldl_min_mem :
    ∀ (rest : List (ℕ × Cell)) (acc : ℕ × Cell),
      rest.foldl (fun a b => if keyLe a b then a else b) acc = acc ∨
        rest.foldl (fun a b => if keyLe a b then a else b) acc ∈ rest := by
  intro rest
  induction rest with
  | nil => intro _; exact Or.inl rfl
  | cons b t ih =>
    intro acc
    rw [List.foldl_cons]
    rcases ih (if keyLe acc b then acc else b) with h | h
    · rw [h]
      cases hkb : keyLe acc b
      · rw [if_neg (by simp [hkb])]
        exact Or.inr (List.mem_cons_self b t)
      · rw [if_pos (by simp [hkb])]
        exact Or.inl rfl
    · exact Or.inr (List.mem_cons_of_mem b h)

theorem minEntry_mem {l : List (ℕ × Cell)} {e : ℕ × Cell}
    (h : minEntry l = some e) : e ∈ l := by
  cases l with
  | nil => exact Option.noConfusion h
  | cons x rest =>
    rw [minEntry] at h
    simp only [Option.some.injEq] at h
    rcases foldl_min_mem rest x with hm | hm
    · rw [← h, hm]
      exact List.mem_cons_self x rest
    · rw [← h]
      exact List.mem_cons_of_mem x hm

theorem eraseEntry_sublist :
    ∀ (l : List (ℕ × Cell)) (e : ℕ × Cell), (eraseEntry l e).Sublist l := by
  intro l e
  induction l with
  | nil => exact List.Sublist.refl []
  | cons x rest ih =>
    rw [eraseEntry]
    by_cases hx : x = e
    · rw [if_pos hx]
      exact List.sublist_cons_self x rest
    · rw [if_neg hx]
      exact List.Sublist.cons₂ x ih

theorem eraseEntry_length :
    ∀ (l : List (ℕ × Cell)) (e : ℕ × Cell), e ∈ l →
      (eraseEntry l e).length + 1 = l.length := by
  intro l
  induction l with
  | nil => intro e he; exact absurd he (List.not_mem_nil e)
  | cons x rest ih =>
    intro e he
    rw [eraseEntry]
    by_cases hx : x = e
    · rw [if_pos hx]
      simp
    · rw [if_neg hx]
      rcases List.mem_cons.mp he with he' | he'
      · exact absurd he'.symm hx
      · simp only [List.length_cons]
        rw [← ih e he']

theorem mem_eraseEntry_of_ne :
    ∀ (l : List (ℕ × Cell)) (e x : ℕ × Cell), x ∈ l → x ≠ e →
      x ∈ eraseEntry l e := by
  intro l
  induction l with
  | nil => intro e x hx _; exact absurd hx (List.not_mem_nil x)
  | cons z rest ih =>
    intro e x hx hne
    rw [eraseEntry]
    by_cases hz : z = e
    · rw [if_pos hz]
      rcases List.mem_cons.mp hx with rfl | hx'
      · exact absurd hz hne
      · exact hx'
    · rw [if_neg hz]
      rcases List.mem_cons.mp hx with rfl | hx'
      · exact List.mem_cons_self _ _
      · exact List.mem_cons_of_mem _ (ih e x hx' hne)

theorem entry_unique_of_nodup :
    ∀ (l : List (ℕ × Cell)), (l.map Prod.snd).Nodup →
      ∀ e1 ∈ l, ∀ e2 ∈ l, e1.2 = e2.2 → e1 = e2 := by
  intro l
  induction l with
  | nil => intro _ e1 h1; exact absurd h1 (List.not_mem_nil e1)
  | cons x rest ih =>
    intro hnd e1 h1 e2 h2 heq
    simp only [List.map_cons, List.nodup_cons] at hnd
    rcases List.mem_cons.mp h1 with rfl | h1'
    · rcases List.mem_cons.mp h2 with rfl | h2'
      · rfl
      · exfalso
        exact hnd.1 (heq ▸ List.mem_map_of_mem Prod.snd h2')
    · rcases List.mem_cons.mp h2 with rfl | h2'
      · exfalso
        exact hnd.1 (heq ▸ List.mem_map_of_mem Prod.snd h1')
      · exact ih hnd.2 e1 h1' e2 h2' heq

theorem eraseEntry_not_mem_of_nodup :
    ∀ (l : List (ℕ × Cell)) (e : ℕ × Cell), (l.map Prod.snd).Nodup →
      e ∉ eraseEntry l e := by
  intro l
  induction l with
  | nil => intro e _ h; exact absurd h (List.not_mem_nil e)
  | cons x rest ih =>
    intro e hnd
    simp only [List.map_cons, List.nodup_cons] at hnd
    rw [eraseEntry]
    by_cases hx : x = e
    · rw [if_pos hx]
      intro hmem
      exact hnd.1 (hx ▸ List.mem_map_of_mem Prod.snd hmem)
    · rw [if_neg hx]
      intro hmem
      rcases List.mem_cons.mp hmem with rfl | hmem'
      · exact hx rfl
      · exact ih e hnd.2 hmem'

theorem mem_getNeighbors {W H : Int} {walls : Finset Wall} {node nb : Cell} :
    nb ∈ getNeighbors W H walls node ↔
      ∃ d ∈ astarDirs, nb = stepCell node d ∧ inBounds W H nb = true ∧
        sortPair node nb ∉ walls := by
  simp only [getNeighbors, List.mem_filterMap]
  constructor
  · rintro ⟨d, hd, hf⟩
    by_cases hcond : inBounds W H (stepCell node d) = true ∧
        sortPair node (stepCell node d) ∉ walls
    · rw [if_pos hcond] at hf
      simp only [Option.some.injEq] at hf
      subst hf
      exact ⟨d, hd, rfl, hcond.1, hcond.2⟩
    · rw [if_neg hcond] at hf
      exact Option.noConfusion hf
  · rintro ⟨d, hd, rfl, hb, hw⟩
    exact ⟨d, hd, by rw [if_pos ⟨hb, hw⟩]⟩

theorem getNeighbors_length_le {W H : Int} {walls : Finset Wall}
    {node : Cell} : (getNeighbors W H walls node).length ≤ 4 := by
  have h := List.length_filterMap_le
    (fun d =>
      let nb := stepCell node d
      if inBounds W H nb ∧ sortPair node nb ∉ walls then some nb else none)
    astarDirs
  simpa [astarDirs] using h

theorem stepCell_ne_self {c : Cell} {d : Int × Int} (hd : d ∈ astarDirs) :
    stepCell c d ≠ c := by
  obtain ⟨cx, cy⟩ := c
  simp only [astarDirs, List.mem_cons, List.not_mem_nil, or_false] at hd
  rcases hd with rfl | rfl | rfl | rfl <;>
    · simp only [stepCell, ne_eq, Prod.mk.injEq, not_and]
      omega

theorem mem_getNeighbors_ne {W H : Int} {walls : Finset Wall}
    {node nb : Cell} (h : nb ∈ getNeighbors W H walls node) : nb ≠ node := by
  rw [mem_getNeighbors] at h
  obtain ⟨d, hd, rfl, _, _⟩ := h
  exact stepCell_ne_self hd

theorem mem_getNeighbors_grid {W H : Int} {walls : Finset Wall}
    {node nb : Cell} (h : nb ∈ getNeighbors W H walls node) :
    nb ∈ grid W H := by
  rw [mem_getNeighbors] at h
  obtain ⟨d, hd, rfl, hb, _⟩ := h
  exact inBounds_iff.mp hb

theorem potC_some {N : ℕ} {s : AState} {c : Cell} {v : ℕ}
    (h : look s.gS c = some v) :
    potC N s c = v + (if c ∈ s.hashS then 0 else 1) := by
  rw [potC, h]

theorem potC_none {N : ℕ} {s : AState} {c : Cell}
    (h : look s.gS c = none) : potC N s c = N + 1 := by
  rw [potC, h]

theorem measM_split (W H : Int) (s : AState) {nb : Cell}
    (hnb : nb ∈ grid W H) :
    measM W H s = s.openL.length +
      ((∑ c ∈ (grid W H).erase nb, potC (grid W H).card s c) +
       potC (grid W H).card s nb) := by
  rw [measM, Finset.sum_erase_add (grid W H) _ hnb]

theorem relaxUpdate_mid (W H : Int) (walls : Finset Wall)
    (start endC cur : Cell) (gcur : ℕ) (s s' : AState) (nb : Cell)
    (hmid : AMid W H walls start endC cur gcur s)
    (hnb : nb ∈ getNeighbors W H walls cur)
    (hgS : s'.gS = (nb, gcur + 1) :: s.gS)
    (hcf : s'.cameFrom = (nb, some cur) :: s.cameFrom)
    (hexp : s'.explored = s.explored)
    (hhash : ∀ c, c ∈ s'.hashS ↔ (c = nb ∨ c ∈ s.hashS))
    (hopen : (s'.openL = s.openL ∧ nb ∈ s.hashS) ∨
      (s'.openL = (gcur + 1 + heuristic nb endC, nb) :: s.openL ∧
        nb ∉ s.hashS))
    (hbetter : look s.gS nb = none ∨
      ∃ gn, look s.gS nb = some gn ∧ gcur + 1 < gn) :
    AMid W H walls start endC cur gcur s' := by
  have hne : nb ≠ cur := mem_getNeighbors_ne hnb
  have hnbg : nb ∈ grid W H := mem_getNeighbors_grid hnb
  have hlook : ∀ c, look s'.gS c =
      if c = nb then some (gcur + 1) else look s.gS c := by
    intro c
    rw [hgS, look_cons]
  have hlookcf : ∀ c, look s'.cameFrom c =
      if c = nb then some (some cur) else look s.cameFrom c := by
    intro c
    rw [hcf, look_cons]
  have hnbstart : nb ≠ start := by
    intro h
    rw [h] at hbetter
    rcases hbetter with hc | ⟨gn, hgn, hlt⟩
    · rw [hmid.iStartG] at hc
      exact Option.noConfusion hc
    · rw [hmid.iStartG] at hgn
      cases hgn
      omega
  have hmono : ∀ c, (look s.gS c).isSome → (look s'.gS c).isSome := by
    intro c hc
    rw [hlook]
    by_cases h : c = nb <;> simp [h, hc]
  refine ⟨hmid.iStartGrid, ?_, ?_, ?_, ?_, ?_, ?_, ?_, ?_, ?_, ?_, ?_, ?_,
    ?_, ?_, ?_, ?_, ?_, ?_, ?_⟩
  · -- iOpenHash
    intro e he
    rcases hopen with ⟨ho, hm⟩ | ⟨ho, hm⟩
    · rw [ho] at he
      exact (hhash e.2).mpr (Or.inr (hmid.iOpenHash e he))
    · rw [ho] at he
      rcases List.mem_cons.mp he with rfl | he'
      · exact (hhash nb).mpr (Or.inl rfl)
      · exact (hhash e.2).mpr (Or.inr (hmid.iOpenHash e he'))
  · -- iHashOpen
    intro c hc
    rcases (hhash c).mp hc with rfl | hc'
    · rcases hopen with ⟨ho, hm⟩ | ⟨ho, hm⟩
      · rw [ho]
        exact hmid.iHashOpen c hm
      · rw [ho]
        exact List.mem_cons_self _ _
    · rcases hopen with ⟨ho, hm⟩ | ⟨ho, hm⟩
      · rw [ho]
        exact hmid.iHashOpen c hc'
      · rw [ho]
        simp only [List.map_cons]
        exact List.mem_cons_of_mem _ (hmid.iHashOpen c hc')
  · -- iOpenNodup
    rcases hopen with ⟨ho, hm⟩ | ⟨ho, hm⟩
    · rw [ho]
      exact hmid.iOpenNodup
    · rw [ho]
      simp only [List.map_cons]
      refine List.nodup_cons.mpr ⟨?_, hmid.iOpenNodup⟩
      intro hmem
      obtain ⟨e, he, heq⟩ := List.mem_map.mp hmem
      exact hm (heq ▸ hmid.iOpenHash e he)
  · -- iHashDom
    intro c hc
    rcases (hhash c).mp hc with rfl | hc'
    · rw [hlook]
      simp
    · exact hmono c (hmid.iHashDom c hc')
  · -- iDomEq
    intro c
    rw [hlook, hlookcf]
    by_cases h : c = nb <;> simp [h, hmid.iDomEq c]
  · -- iStartCf
    rw [hlookcf, if_neg (fun h => hnbstart h.symm)]
    exact hmid.iStartCf
  · -- iStartG
    rw [hlook, if_neg (fun h => hnbstart h.symm)]
    exact hmid.iStartG
  · -- iNoneStart
    intro c hc
    rw [hlookcf] at hc
    by_cases h : c = nb
    · rw [if_pos h] at hc
      exact Option.noConfusion hc fun he => Option.noConfusion he
    · rw [if_neg h] at hc
      exact hmid.iNoneStart c hc
  · -- iChain
    intro c pr hc
    rw [hlookcf] at hc
    by_cases h : c = nb
    · rw [if_pos h] at hc
      simp only [Option.some.injEq] at hc
      subst hc
      subst h
      refine ⟨gcur + 1, gcur, ?_, ?_, by omega, hnb, ?_⟩
      · rw [hlook, if_pos rfl]
      · rw [hlook, if_neg hne.symm]
        exact hmid.iCurG
      · rw [hexp]
        exact hmid.iCurExp
    · rw [if_neg h] at hc
      obtain ⟨gc, gp, hgc, hgp, hlt, hmem, hpe⟩ := hmid.iChain c pr hc
      by_cases hpr : pr = nb
      · subst hpr
        rcases hbetter with hnone | ⟨gn, hgn, hgnlt⟩
        · rw [hnone] at hgp
          exact Option.noConfusion hgp
        · rw [hgn] at hgp
          cases hgp
          refine ⟨gc, gcur + 1, ?_, ?_, by omega, hmem, ?_⟩
          · rw [hlook, if_neg h]
            exact hgc
          · rw [hlook, if_pos rfl]
          · rw [hexp]
            exact hpe
      · refine ⟨gc, gp, ?_, ?_, hlt, hmem, ?_⟩
        · rw [hlook, if_neg h]
          exact hgc
        · rw [hlook, if_neg hpr]
          exact hgp
        · rw [hexp]
          exact hpe
  · -- iKeys
    intro c hc
    rw [hlook] at hc
    by_cases h : c = nb
    · rw [h]
      exact hnbg
    · rw [if_neg h] at hc
      exact hmid.iKeys c hc
  · -- iCount
    intro c gc hgc
    rw [hlook] at hgc
    by_cases h : c = nb
    · rw [if_pos h] at hgc
      simp only [Option.some.injEq] at hgc
      subst hgc
      have hsub : insert cur ((grid W H).filter (gLt s gcur)) ⊆
          (grid W H).filter (gLt s' (gcur + 1)) := by
        intro x hx
        rcases Finset.mem_insert.mp hx with rfl | hx'
        · refine Finset.mem_filter.mpr ⟨?_, ?_⟩
          · exact hmid.iKeys x (by rw [hmid.iCurG]; simp)
          · refine ⟨gcur, ?_, by omega⟩
            rw [hlook, if_neg hne.symm]
            exact hmid.iCurG
        · obtain ⟨hxg, gx, hgx, hxlt⟩ := Finset.mem_filter.mp hx'
          refine Finset.mem_filter.mpr ⟨hxg, gx, ?_, by omega⟩
          have hxnb : x ≠ nb := by
            rintro rfl
            rcases hbetter with hnone | ⟨gn, hgn, hgnlt⟩
            · rw [hnone] at hgx
              exact Option.noConfusion hgx
            · rw [hgn] at hgx
              cases hgx
              omega
          rw [hlook, if_neg hxnb]
          exact hgx
      have hcur : cur ∉ (grid W H).filter (gLt s gcur) := by
        intro hmem
        obtain ⟨_, gx, hgx, hxlt⟩ := Finset.mem_filter.mp hmem
        rw [hmid.iCurG] at hgx
        cases hgx
        omega
      have hcard := Finset.card_le_card hsub
      rw [Finset.card_insert_of_not_mem hcur] at hcard
      have hcount := hmid.iCount cur gcur hmid.iCurG
      omega
    · rw [if_neg h] at hgc
      have hcount := hmid.iCount c gc hgc
      have hsub : (grid W H).filter (gLt s gc) ⊆
          (grid W H).filter (gLt s' gc) := by
        intro x hx
        obtain ⟨hxg, gx, hgx, hxlt⟩ := Finset.mem_filter.mp hx
        by_cases hxnb : x = nb
        · subst hxnb
          rcases hbetter with hnone | ⟨gn, hgn, hgnlt⟩
          · rw [hnone] at hgx
            exact Option.noConfusion hgx
          · rw [hgn] at hgx
            cases hgx
            refine Finset.mem_filter.mpr ⟨hxg, gcur + 1, ?_, by omega⟩
            rw [hlook, if_pos rfl]
        · refine Finset.mem_filter.mpr ⟨hxg, gx, ?_, hxlt⟩
          rw [hlook, if_neg hxnb]
          exact hgx
      exact le_trans hcount (Finset.card_le_card hsub)
  · -- iClosedExc
    intro c hc hcne nb' hnb'
    rw [hexp] at hc
    exact hmono nb' (hmid.iClosedExc c hc hcne nb' hnb')
  · -- iExpDom
    intro c hc
    rw [hexp] at hc
    exact hmono c (hmid.iExpDom c hc)
  · -- iDomWhere
    intro c hc
    rw [hlook] at hc
    by_cases h : c = nb
    · right
      rw [h]
      exact (hhash nb).mpr (Or.inl rfl)
    · rw [if_neg h] at hc
      rcases hmid.iDomWhere c hc with hce | hch
      · left
        rw [hexp]
        exact hce
      · right
        exact (hhash c).mpr (Or.inr hch)
  · -- iEndNot
    rw [hexp]
    exact hmid.iEndNot
  · -- iLen
    rw [hgS, hcf]
    simp only [List.length_cons]
    rw [hmid.iLen]
  · -- iCurG
    rw [hlook, if_neg hne.symm]
    exact hmid.iCurG
  · -- iCurExp
    rw [hexp]
    exact hmid.iCurExp
  · -- iCurHash
    intro hc
    rcases (hhash cur).mp hc with h | h
    · exact hne h.symm
    · exact hmid.iCurHash h

theorem g_bound {W H : Int} {walls : Finset Wall} {start endC cur : Cell}
    {gcur : ℕ} {s : AState}
    (hmid : AMid W H walls start endC cur gcur s) {c : Cell} {gc : ℕ}
    (h : look s.gS c = some gc) : gc + 1 ≤ (grid W H).card := by
  have hcount := hmid.iCount c gc h
  have hcg : c ∈ grid W H := hmid.iKeys c (by rw [h]; simp)
  have hsub : (grid W H).filter (gLt s gc) ⊆ (grid W H).erase c := by
    intro x hx
    obtain ⟨hxg, gx, hgx, hlt⟩ := Finset.mem_filter.mp hx
    refine Finset.mem_erase.mpr ⟨?_, hxg⟩
    rintro rfl
    rw [h] at hgx
    cases hgx
    omega
  have h1 := Finset.card_le_card hsub
  have h2 : ((grid W H).erase c).card + 1 = (grid W H).card :=
    Finset.card_erase_add_one hcg
  omega

theorem relaxOne_spec (W H : Int) (walls : Finset Wall)
    (start endC cur : Cell) (gcur : ℕ) (s : AState) (nb : Cell)
    (hmid : AMid W H walls start endC cur gcur s)
    (hnb : nb ∈ getNeighbors W H walls cur) :
    AMid W H walls start endC cur gcur (relaxOne endC cur gcur nb s) ∧
    (look (relaxOne endC cur gcur nb s).gS nb).isSome ∧
    (relaxOne endC cur gcur nb s).explored = s.explored ∧
    (relaxOne endC cur gcur nb s = s ∨
      (measM W H (relaxOne endC cur gcur nb s) < measM W H s ∧
       (relaxOne endC cur gcur nb s).openL.length ≤ s.openL.length + 1)) := by
  have hne : nb ≠ cur := mem_getNeighbors_ne hnb
  have hnbg : nb ∈ grid W H := mem_getNeighbors_grid hnb
  by_cases hbet : better (gcur + 1) (look s.gS nb) = true
  · have hbetter : look s.gS nb = none ∨
        ∃ gn, look s.gS nb = some gn ∧ gcur + 1 < gn := by
      cases h : look s.gS nb with
      | none => exact Or.inl rfl
      | some gn =>
        right
        refine ⟨gn, rfl, ?_⟩
        rw [h] at hbet
        simpa [better] using hbet
    by_cases hh : nb ∈ s.hashS
    · -- improve a cell already on the heap: no push (the stale-key case)
      have hs' : relaxOne endC cur gcur nb s =
          { s with cameFrom := (nb, some cur) :: s.cameFrom,
                   gS := (nb, gcur + 1) :: s.gS,
                   fS := (nb, gcur + 1 + heuristic nb endC) :: s.fS } := by
        simp only [relaxOne]
        rw [if_pos hbet, if_pos hh]
      obtain ⟨gn, hgn, hlt⟩ : ∃ gn, look s.gS nb = some gn ∧ gcur + 1 < gn := by
        rcases hbetter with hnone | hsome
        · exfalso
          have := hmid.iHashDom nb hh
          rw [hnone] at this
          exact Bool.noConfusion this
        · exact hsome
      rw [hs']
      set s2 : AState :=
        { s with cameFrom := (nb, some cur) :: s.cameFrom,
                 gS := (nb, gcur + 1) :: s.gS,
                 fS := (nb, gcur + 1 + heuristic nb endC) :: s.fS }
        with hs2_def
      have hgS2 : s2.gS = (nb, gcur + 1) :: s.gS := by rw [hs2_def]
      have hcf2 : s2.cameFrom = (nb, some cur) :: s.cameFrom := by
        rw [hs2_def]
      have hexp2 : s2.explored = s.explored := by rw [hs2_def]
      have hhash2 : s2.hashS = s.hashS := by rw [hs2_def]
      have hopen2 : s2.openL = s.openL := by rw [hs2_def]
      have hmid' := relaxUpdate_mid W H walls start endC cur gcur s s2 nb hmid
        hnb hgS2 hcf2 hexp2
        (fun c => by
          rw [hhash2]
          constructor
          · exact fun h => Or.inr h
          · rintro (rfl | h)
            · exact hh
            · exact h)
        (Or.inl ⟨hopen2, hh⟩)
        hbetter
      refine ⟨hmid', by rw [hgS2, look_cons, if_pos rfl]; simp, hexp2,
        Or.inr ⟨?_, ?_⟩⟩
      · have hpot : ∀ x : Cell, x ≠ nb →
            potC (grid W H).card s2 x = potC (grid W H).card s x := by
          intro x hx
          have hlx : look s2.gS x = look s.gS x := by
            rw [hgS2, look_cons, if_neg hx]
          cases hv : look s.gS x with
          | none => rw [potC_none (by rw [hlx, hv]), potC_none hv]
          | some v =>
            rw [potC_some (by rw [hlx, hv]), potC_some hv, hhash2]
        have hsum : ∑ c ∈ (grid W H).erase nb, potC (grid W H).card s2 c =
            ∑ c ∈ (grid W H).erase nb, potC (grid W H).card s c :=
          Finset.sum_congr rfl fun x hx => hpot x (Finset.ne_of_mem_erase hx)
        rw [measM_split W H s2 hnbg, measM_split W H s hnbg, hsum]
        have hp2 : potC (grid W H).card s2 nb = gcur + 1 := by
          rw [potC_some (by rw [hgS2, look_cons, if_pos rfl]), hhash2,
            if_pos hh]
        have hp1 : potC (grid W H).card s nb = gn := by
          rw [potC_some hgn, if_pos hh]
          omega
        rw [hp1, hp2, hopen2]
        omega
      · rw [hopen2]
        omega
    · -- push the neighbor with its fresh f-score
      have hs' : relaxOne endC cur gcur nb s =
          { s with cameFrom := (nb, some cur) :: s.cameFrom,
                   gS := (nb, gcur + 1) :: s.gS,
                   fS := (nb, gcur + 1 + heuristic nb endC) :: s.fS,
                   openL := (gcur + 1 + heuristic nb endC, nb) :: s.openL,
                   hashS := insert nb s.hashS } := by
        simp only [relaxOne]
        rw [if_pos hbet, if_neg hh]
      rw [hs']
      set s2 : AState :=
        { s with cameFrom := (nb, some cur) :: s.cameFrom,
                 gS := (nb, gcur + 1) :: s.gS,
                 fS := (nb, gcur + 1 + heuristic nb endC) :: s.fS,
                 openL := (gcur + 1 + heuristic nb endC, nb) :: s.openL,
                 hashS := insert nb s.hashS }
        with hs2_def
      have hgS2 : s2.gS = (nb, gcur + 1) :: s.gS := by rw [hs2_def]
      have hcf2 : s2.cameFrom = (nb, some cur) :: s.cameFrom := by
        rw [hs2_def]
      have hexp2 : s2.explored = s.explored := by rw [hs2_def]
      have hhash2 : s2.hashS = insert nb s.hashS := by rw [hs2_def]
      have hopen2 : s2.openL = (gcur + 1 + heuristic nb endC, nb) :: s.openL :=
        by rw [hs2_def]
      have hmid' := relaxUpdate_mid W H walls start endC cur gcur s s2 nb hmid
        hnb hgS2 hcf2 hexp2
        (fun c => by
          rw [hhash2]
          exact Finset.mem_insert)
        (Or.inr ⟨hopen2, hh⟩)
        hbetter
      refine ⟨hmid', by rw [hgS2, look_cons, if_pos rfl]; simp, hexp2,
        Or.inr ⟨?_, ?_⟩⟩
      · have hpot : ∀ x : Cell, x ≠ nb →
            potC (grid W H).card s2 x = potC (grid W H).card s x := by
          intro x hx
          have hlx : look s2.gS x = look s.gS x := by
            rw [hgS2, look_cons, if_neg hx]
          cases hv : look s.gS x with
          | none => rw [potC_none (by rw [hlx, hv]), potC_none hv]
          | some v =>
            rw [potC_some (by rw [hlx, hv]), potC_some hv, hhash2]
            congr 1
            refine if_congr ?_ rfl rfl
            rw [Finset.mem_insert]
            constructor
            · rintro (rfl | h)
              · exact absurd rfl hx
              · exact h
            · exact fun h => Or.inr h
        have hsum : ∑ c ∈ (grid W H).erase nb, potC (grid W H).card s2 c =
            ∑ c ∈ (grid W H).erase nb, potC (grid W H).card s c :=
          Finset.sum_congr rfl fun x hx => hpot x (Finset.ne_of_mem_erase hx)
        rw [measM_split W H s2 hnbg, measM_split W H s hnbg, hsum]
        have hp2 : potC (grid W H).card s2 nb = gcur + 1 := by
          rw [potC_some (by rw [hgS2, look_cons, if_pos rfl]), hhash2,
            if_pos (Finset.mem_insert_self nb s.hashS)]
        have hlen : s2.openL.length = s.openL.length + 1 := by
          rw [hopen2]
          simp
        rw [hp2, hlen]
        rcases hbetter with hnone | ⟨gn, hgn, hlt⟩
        · have hp1 : potC (grid W H).card s nb = (grid W H).card + 1 :=
            potC_none hnone
          have hN : gcur + 1 + 1 ≤ (grid W H).card :=
            g_bound hmid' (by rw [hgS2, look_cons, if_pos rfl])
          rw [hp1]
          omega
        · have hp1 : potC (grid W H).card s nb = gn + 1 := by
            rw [potC_some hgn, if_neg hh]
          rw [hp1]
          omega
      · rw [hopen2]
        simp
  · -- no improvement: the state is untouched
    have hs' : relaxOne endC cur gcur nb s = s := by
      simp only [relaxOne]
      rw [if_neg (by simp [hbet])]
    rw [hs']
    have hsome : (look s.gS nb).isSome := by
      cases h : look s.gS nb with
      | none =>
        rw [h] at hbet
        simp [better] at hbet
      | some gn => simp
    exact ⟨hmid, hsome, rfl, Or.inl rfl⟩

theorem relaxOne_gS_mono (endC cur : Cell) (gcur : ℕ) (nb : Cell)
    (s : AState) (c : Cell) (hc : (look s.gS c).isSome) :
    (look (relaxOne endC cur gcur nb s).gS c).isSome := by
  simp only [relaxOne]
  split_ifs with h1 h2
  · by_cases hcn : c = nb
    · simp [look_cons, hcn]
    · simp only [look_cons, if_neg hcn]
      exact hc
  · by_cases hcn : c = nb
    · simp [look_cons, hcn]
    · simp only [look_cons, if_neg hcn]
      exact hc
  · exact hc

theorem relaxList_spec (W H : Int) (walls : Finset Wall)
    (start endC cur : Cell) (gcur : ℕ) :
    ∀ (ns : List Cell) (s : AState),
      AMid W H walls start endC cur gcur s →
      (∀ nb ∈ ns, nb ∈ getNeighbors W H walls cur) →
      AMid W H walls start endC cur gcur (relaxList endC cur gcur ns s) ∧
      (∀ nb ∈ ns,
        (look (relaxList endC cur gcur ns s).gS nb).isSome) ∧
      (relaxList endC cur gcur ns s).explored = s.explored ∧
      measM W H (relaxList endC cur gcur ns s) ≤ measM W H s ∧
      (relaxList endC cur gcur ns s).openL.length ≤
        s.openL.length + ns.length ∧
      (relaxList endC cur gcur ns s = s ∨
        measM W H (relaxList endC cur gcur ns s) < measM W H s) ∧
      (∀ c, (look s.gS c).isSome →
        (look (relaxList endC cur gcur ns s).gS c).isSome) := by
  intro ns
  induction ns with
  | nil =>
    intro s hmid _
    exact ⟨hmid, fun nb hnb => absurd hnb (List.not_mem_nil nb), rfl,
      le_refl _, by simp [relaxList], Or.inl rfl, fun c hc => hc⟩
  | cons nb rest ih =>
    intro s hmid hns
    have hnb : nb ∈ getNeighbors W H walls cur :=
      hns nb (List.mem_cons_self nb rest)
    have hrest : ∀ x ∈ rest, x ∈ getNeighbors W H walls cur :=
      fun x hx => hns x (List.mem_cons_of_mem nb hx)
    obtain ⟨hm1, hsome1, hexp1, hmeas1⟩ :=
      relaxOne_spec W H walls start endC cur gcur s nb hmid hnb
    have hstep : relaxList endC cur gcur (nb :: rest) s =
        relaxList endC cur gcur rest (relaxOne endC cur gcur nb s) := rfl
    obtain ⟨im1, im2, im3, im4, im5, im6, im7⟩ :=
      ih (relaxOne endC cur gcur nb s) hm1 hrest
    rw [hstep]
    refine ⟨im1, ?_, ?_, ?_, ?_, ?_, ?_⟩
    · intro x hx
      rcases List.mem_cons.mp hx with rfl | hx'
      · exact im7 x hsome1
      · exact im2 x hx'
    · rw [im3, hexp1]
    · rcases hmeas1 with heq | ⟨hlt, _⟩
      · rw [heq] at im4 ⊢
        exact im4
      · exact le_trans im4 (le_of_lt hlt)
    · rcases hmeas1 with heq | ⟨_, hlen⟩
      · rw [heq] at im5 ⊢
        simp only [List.length_cons]
        omega
      · have := im5
        simp only [List.length_cons]
        omega
    · rcases hmeas1 with heq | ⟨hlt, _⟩
      · rw [heq] at im6 ⊢
        exact im6
      · right
        exact lt_of_le_of_lt im4 hlt
    · intro c hc
      exact im7 c (relaxOne_gS_mono endC cur gcur nb s c hc)

theorem minEntry_eq_none {l : List (ℕ × Cell)} (h : minEntry l = none) :
    l = [] := by
  cases l with
  | nil => rfl
  | cons x rest => exact Option.noConfusion h

theorem pop_mid (W H : Int) (walls : Finset Wall) (start endC : Cell)
    (s : AState) (e : ℕ × Cell)
    (hinv : AInv W H walls start endC s)
    (hmin : minEntry s.openL = some e)
    (hne : e.2 ≠ endC) :
    ∃ gcur, look s.gS e.2 = some gcur ∧
      AMid W H walls start endC e.2 gcur
        { s with openL := eraseEntry s.openL e, hashS := s.hashS.erase e.2,
                 explored := s.explored ++ [e.2] } := by
  have he : e ∈ s.openL := minEntry_mem hmin
  have hhash : e.2 ∈ s.hashS := hinv.iOpenHash e he
  have hdom := hinv.iHashDom e.2 hhash
  obtain ⟨gcur, hgcur⟩ := Option.isSome_iff_exists.mp hdom
  refine ⟨gcur, hgcur, hinv.iStartGrid, ?_, ?_, ?_, ?_, hinv.iDomEq,
    hinv.iStartCf, hinv.iStartG, hinv.iNoneStart, ?_, hinv.iKeys,
    hinv.iCount, ?_, ?_, ?_, ?_, hinv.iLen, hgcur, ?_, ?_⟩
  · -- iOpenHash
    intro e' he'
    have hmem : e' ∈ s.openL := (eraseEntry_sublist s.openL e).mem he'
    refine Finset.mem_erase.mpr ⟨?_, hinv.iOpenHash e' hmem⟩
    intro heq
    have : e' = e :=
      entry_unique_of_nodup s.openL hinv.iOpenNodup e' hmem e he heq
    rw [this] at he'
    exact eraseEntry_not_mem_of_nodup s.openL e hinv.iOpenNodup he'
  · -- iHashOpen
    intro c hc
    obtain ⟨hcne, hcmem⟩ := Finset.mem_erase.mp hc
    have := hinv.iHashOpen c hcmem
    obtain ⟨e'', he'', heq⟩ := List.mem_map.mp this
    have hne'' : e'' ≠ e := by
      intro h
      rw [h] at heq
      exact hcne heq.symm
    exact List.mem_map.mpr ⟨e'', mem_eraseEntry_of_ne s.openL e e'' he'' hne'',
      heq⟩
  · -- iOpenNodup
    exact hinv.iOpenNodup.sublist ((eraseEntry_sublist s.openL e).map Prod.snd)
  · -- iHashDom
    intro c hc
    exact hinv.iHashDom c (Finset.mem_erase.mp hc).2
  · -- iChain (explored grows)
    intro c pr hc
    obtain ⟨gc, gp, h1, h2, h3, h4, h5⟩ := hinv.iChain c pr hc
    exact ⟨gc, gp, h1, h2, h3, h4, List.mem_append_left _ h5⟩
  · -- iClosedExc
    intro c hc hcne nb hnb
    rcases List.mem_append.mp hc with hc' | hc'
    · exact hinv.iClosed c hc' nb hnb
    · simp only [List.mem_singleton] at hc'
      exact absurd hc' hcne
  · -- iExpDom
    intro c hc
    rcases List.mem_append.mp hc with hc' | hc'
    · exact hinv.iExpDom c hc'
    · simp only [List.mem_singleton] at hc'
      rw [hc', hgcur]
      simp
  · -- iDomWhere
    intro c hc
    rcases hinv.iDomWhere c hc with hce | hch
    · exact Or.inl (List.mem_append_left _ hce)
    · by_cases hcc : c = e.2
      · exact Or.inl (List.mem_append_right _ (by simp [hcc]))
      · exact Or.inr (Finset.mem_erase.mpr ⟨hcc, hch⟩)
  · -- iEndNot
    intro hc
    rcases List.mem_append.mp hc with hc' | hc'
    · exact hinv.iEndNot hc'
    · simp only [List.mem_singleton] at hc'
      exact hne hc'.symm
  · -- iCurExp
    exact List.mem_append_right _ (by simp)
  · -- iCurHash
    exact Finset.not_mem_erase e.2 s.hashS

theorem g_le_len {W H : Int} {walls : Finset Wall} {start endC : Cell}
    (s : AState)
    (hCount : ∀ c gc, look s.gS c = some gc →
      gc ≤ ((grid W H).filter (gLt s gc)).card)
    (hLen : s.gS.length = s.cameFrom.length) {c : Cell} {gc : ℕ}
    (hgc : look s.gS c = some gc) : gc ≤ s.cameFrom.length := by
  have h1 : (grid W H).filter (gLt s gc) ⊆ (s.gS.map Prod.fst).toFinset := by
    intro x hx
    obtain ⟨_, gx, hgx, _⟩ := Finset.mem_filter.mp hx
    rw [List.mem_toFinset]
    exact look_isSome_mem_keys _ x (by rw [hgx]; simp)
  have h2 := Finset.card_le_card h1
  have h3 : (s.gS.map Prod.fst).toFinset.card ≤
      (s.gS.map Prod.fst).length := (s.gS.map Prod.fst).toFinset_card_le
  have h4 : (s.gS.map Prod.fst).length = s.gS.length :=
    List.length_map _ _
  have h5 := hCount c gc hgc
  omega

theorem recon_spec (W H : Int) (walls : Finset Wall) (start : Cell)
    (s : AState)
    (hDomEq : ∀ c : Cell, (look s.gS c).isSome ↔ (look s.cameFrom c).isSome)
    (hNone : ∀ c, look s.cameFrom c = some none → c = start)
    (hChain : ∀ c pr, look s.cameFrom c = some (some pr) →
      ∃ gc gp, look s.gS c = some gc ∧ look s.gS pr = some gp ∧ gp < gc ∧
        c ∈ getNeighbors W H walls pr ∧ pr ∈ s.explored) :
    ∀ gc : ℕ, ∀ c, look s.gS c = some gc → ∀ fuel, gc < fuel →
      ∃ l, recon s.cameFrom fuel c = some l ∧ l.head? = some start ∧
        l.getLast? = some c ∧
        l.Chain' (fun x y => y ∈ getNeighbors W H walls x) ∧
        (∀ x ∈ l, x ∈ s.explored ∨ x = c) := by
  intro gc
  induction gc using Nat.strong_induction_on with
  | _ gc IH =>
    intro c hgc fuel hfuel
    cases fuel with
    | zero => omega
    | succ f =>
      rw [recon]
      have hcf : (look s.cameFrom c).isSome :=
        (hDomEq c).mp (by rw [hgc]; simp)
      cases hcfv : look s.cameFrom c with
      | none =>
        rw [hcfv] at hcf
        exact absurd hcf (by simp)
      | some o =>
        cases o with
        | none =>
          have hc : c = start := hNone c hcfv
          refine ⟨[c], rfl, by simp [hc], rfl, List.chain'_singleton c, ?_⟩
          intro x hx
          simp only [List.mem_singleton] at hx
          exact Or.inr hx
        | some pr =>
          obtain ⟨gc', gp, hgc', hgp, hlt, hmem, hpe⟩ := hChain c pr hcfv
          rw [hgc] at hgc'
          cases hgc'
          obtain ⟨l0, hl0, hh0, hlast0, hch0, hmem0⟩ :=
            IH gp (by omega) pr hgp f (by omega)
          refine ⟨l0 ++ [c], ?_, ?_, List.getLast?_concat l0, ?_, ?_⟩
          · show Option.map (fun l => l ++ [c]) (recon s.cameFrom f pr) =
              some (l0 ++ [c])
            rw [hl0]
            rfl
          · rw [List.head?_append]
            rw [hh0]
            rfl
          · rw [List.chain'_append]
            refine ⟨hch0, List.chain'_singleton c, ?_⟩
            intro x hx y hy
            rw [Option.mem_def, hlast0] at hx
            cases hx
            simp only [List.head?_cons, Option.mem_def, Option.some.injEq]
              at hy
            rw [← hy]
            exact hmem
          · intro x hx
            rcases List.mem_append.mp hx with hx' | hx'
            · rcases hmem0 x hx' with h | h
              · exact Or.inl h
              · rw [h]
                exact Or.inl hpe
            · simp only [List.mem_singleton] at hx'
              exact Or.inr hx'

theorem loop_iter (W H : Int) (walls : Finset Wall) (start endC : Cell)
    (s : AState) (e : ℕ × Cell)
    (hinv : AInv W H walls start endC s)
    (hmin : minEntry s.openL = some e)
    (hne : e.2 ≠ endC) :
    ∃ gcur, look s.gS e.2 = some gcur ∧
      (AInv W H walls start endC
        (relaxList endC e.2 gcur (getNeighbors W H walls e.2)
          { s with openL := eraseEntry s.openL e,
                   hashS := s.hashS.erase e.2,
                   explored := s.explored ++ [e.2] }) ∧
       measT W H (relaxList endC e.2 gcur (getNeighbors W H walls e.2)
          { s with openL := eraseEntry s.openL e,
                   hashS := s.hashS.erase e.2,
                   explored := s.explored ++ [e.2] }) < measT W H s ∧
       (relaxList endC e.2 gcur (getNeighbors W H walls e.2)
          { s with openL := eraseEntry s.openL e,
                   hashS := s.hashS.erase e.2,
                   explored := s.explored ++ [e.2] }).explored =
         s.explored ++ [e.2]) := by
  obtain ⟨gcur, hgcur, hmid1⟩ := pop_mid W H walls start endC s e hinv hmin hne
  set s1 : AState :=
    { s with openL := eraseEntry s.openL e, hashS := s.hashS.erase e.2,
             explored := s.explored ++ [e.2] } with hs1_def
  obtain ⟨rm1, rm2, rm3, rm4, rm5, rm6, rm7⟩ :=
    relaxList_spec W H walls start endC e.2 gcur
      (getNeighbors W H walls e.2) s1 hmid1 (fun nb h => h)
  have hgS1 : s1.gS = s.gS := by rw [hs1_def]
  have hexp1 : s1.explored = s.explored ++ [e.2] := by rw [hs1_def]
  have hhash1 : s1.hashS = s.hashS.erase e.2 := by rw [hs1_def]
  have hopen1 : s1.openL = eraseEntry s.openL e := by rw [hs1_def]
  have hlen1 : s1.openL.length + 1 = s.openL.length := by
    rw [hopen1]
    exact eraseEntry_length s.openL e (minEntry_mem hmin)
  have hcurg : e.2 ∈ grid W H := hinv.iKeys e.2 (by rw [hgcur]; simp)
  have hcurh : e.2 ∈ s.hashS := hinv.iOpenHash e (minEntry_mem hmin)
  have hmeq : measM W H s1 = measM W H s := by
    have hpot : ∀ x : Cell, x ≠ e.2 →
        potC (grid W H).card s1 x = potC (grid W H).card s x := by
      intro x hx
      have hlx : look s1.gS x = look s.gS x := by rw [hgS1]
      cases hv : look s.gS x with
      | none => rw [potC_none (by rw [hlx, hv]), potC_none hv]
      | some v =>
        rw [potC_some (by rw [hlx, hv]), potC_some hv, hhash1]
        congr 1
        refine if_congr ?_ rfl rfl
        rw [Finset.mem_erase]
        exact ⟨fun h => h.2, fun h => ⟨hx, h⟩⟩
    have hsum : ∑ c ∈ (grid W H).erase e.2, potC (grid W H).card s1 c =
        ∑ c ∈ (grid W H).erase e.2, potC (grid W H).card s c :=
      Finset.sum_congr rfl fun x hx => hpot x (Finset.ne_of_mem_erase hx)
    rw [measM_split W H s1 hcurg, measM_split W H s hcurg, hsum]
    have hp1 : potC (grid W H).card s1 e.2 = gcur + 1 := by
      rw [potC_some (by rw [hgS1, hgcur]), hhash1,
        if_neg (Finset.not_mem_erase e.2 s.hashS)]
    have hp0 : potC (grid W H).card s e.2 = gcur := by
      rw [potC_some hgcur, if_pos hcurh]
      omega
    rw [hp1, hp0]
    omega
  refine ⟨gcur, hgcur, ?_, ?_, by rw [rm3, hexp1]⟩
  · refine ⟨rm1.iStartGrid, rm1.iOpenHash, rm1.iHashOpen, rm1.iOpenNodup,
      rm1.iHashDom, rm1.iDomEq, rm1.iStartCf, rm1.iStartG, rm1.iNoneStart,
      rm1.iChain, rm1.iKeys, rm1.iCount, ?_, rm1.iExpDom, rm1.iDomWhere,
      rm1.iEndNot, rm1.iLen⟩
    intro c hc nb hnb
    by_cases hcc : c = e.2
    · exact rm2 nb (by rw [← hcc]; exact hnb)
    · exact rm1.iClosedExc c hc hcc nb hnb
  · have hns4 : (getNeighbors W H walls e.2).length ≤ 4 :=
      getNeighbors_length_le
    rw [measT, measT]
    rcases rm6 with heq | hstrict
    · rw [heq, hmeq, hlen1.symm]
      omega
    · rw [hmeq] at hstrict rm4
      have h1 : measM W H (relaxList endC e.2 gcur
          (getNeighbors W H walls e.2) s1) + 1 ≤ measM W H s := hstrict
      have h2 : ((grid W H).card + 6) *
          (measM W H (relaxList endC e.2 gcur
            (getNeighbors W H walls e.2) s1) + 1) ≤
          ((grid W H).card + 6) * measM W H s :=
        Nat.mul_le_mul_left _ h1
      rw [Nat.mul_add, Nat.mul_one] at h2
      have h3 := rm5
      omega

theorem loop_spec (W H : Int) (walls : Finset Wall) (start endC : Cell) :
    ∀ fuel : ℕ, ∀ s : AState,
    AInv W H walls start endC s →
    measT W H s < fuel →
    ∃ r s', loopA W H walls endC fuel s = some (r, s') ∧
      (∃ tail, s'.explored = s.explored ++ tail) ∧
      ((r = none ∧ s'.openL = [] ∧ AInv W H walls start endC s') ∨
       (∃ p, r = some p ∧ p.head? = some start ∧ p.getLast? = some endC ∧
         p.Chain' (fun x y => y ∈ getNeighbors W H walls x) ∧
         (∀ c ∈ p, c ∈ s'.explored) ∧
         (∃ pre, s'.explored = pre ++ [endC]))) := by
  intro fuel
  induction fuel with
  | zero =>
    intro s _ hm
    omega
  | succ fuel IH =>
    intro s hinv hm
    rw [loopA]
    cases hmin : minEntry s.openL with
    | none =>
      refine ⟨none, s, rfl, ⟨[], by simp⟩, Or.inl ⟨rfl, ?_, hinv⟩⟩
      exact minEntry_eq_none hmin
    | some e =>
      by_cases hend : e.2 = endC
      · -- the goal is popped: reconstruct the path
        set s1 : AState :=
          { s with openL := eraseEntry s.openL e,
                   hashS := s.hashS.erase e.2,
                   explored := s.explored ++ [e.2] } with hs1_def
        have hgS1 : s1.gS = s.gS := by rw [hs1_def]
        have hcf1 : s1.cameFrom = s.cameFrom := by rw [hs1_def]
        have hexp1 : s1.explored = s.explored ++ [e.2] := by rw [hs1_def]
        have he : e ∈ s.openL := minEntry_mem hmin
        have hhashm : e.2 ∈ s.hashS := hinv.iOpenHash e he
        obtain ⟨gcur, hgcur⟩ :=
          Option.isSome_iff_exists.mp (hinv.iHashDom e.2 hhashm)
        have hgcur1 : look s1.gS e.2 = some gcur := by rw [hgS1]; exact hgcur
        have hrs := recon_spec W H walls start s1
          (by
            intro c
            rw [hgS1, hcf1]
            exact hinv.iDomEq c)
          (by
            intro c hc
            rw [hcf1] at hc
            exact hinv.iNoneStart c hc)
          (by
            intro c pr hc
            rw [hcf1] at hc
            obtain ⟨gc, gp, h1, h2, h3, h4, h5⟩ := hinv.iChain c pr hc
            rw [← hgS1] at h1 h2
            exact ⟨gc, gp, h1, h2, h3, h4, by
              rw [hexp1]
              exact List.mem_append_left _ h5⟩)
          gcur e.2 hgcur1 (s1.cameFrom.length + 1)
          (by
            have := @g_le_len W H walls start endC s1
              (by
                intro c gc hgc
                rw [hgS1] at hgc
                have h := hinv.iCount c gc hgc
                refine le_trans h (Finset.card_le_card ?_)
                intro x hx
                obtain ⟨hxg, gx, hgx, hlt⟩ := Finset.mem_filter.mp hx
                exact Finset.mem_filter.mpr ⟨hxg, gx, by rw [hgS1]; exact hgx,
                  hlt⟩)
              (by rw [hgS1, hcf1]; exact hinv.iLen) e.2 gcur hgcur1
            omega)
        obtain ⟨p, hp, hph, hpl, hpc, hpm⟩ := hrs
        refine ⟨some p, s1, ?_, ⟨[e.2], hexp1⟩, Or.inr ⟨p, rfl, hph,
          by rw [hpl, hend], hpc, ?_, ?_⟩⟩
        · show (if e.2 = endC then
              match recon s1.cameFrom (s1.cameFrom.length + 1) e.2 with
              | none => none
              | some p => some (some p, s1)
            else
              match look s1.gS e.2 with
              | none => none
              | some gcur =>
                loopA W H walls endC fuel
                  (relaxList endC e.2 gcur (getNeighbors W H walls e.2) s1)) =
            some (some p, s1)
          rw [if_pos hend, hp]
        · intro c hc
          rcases hpm c hc with h | h
          · exact h
          · rw [hexp1, h]
            exact List.mem_append_right _ (by simp)
        · refine ⟨s.explored, ?_⟩
          rw [hexp1, hend]
      · -- ordinary iteration
        set s1 : AState :=
          { s with openL := eraseEntry s.openL e,
                   hashS := s.hashS.erase e.2,
                   explored := s.explored ++ [e.2] } with hs1_def
        obtain ⟨gcur, hgcur, hainv2, hmeas2, hexp2⟩ :=
          loop_iter W H walls start endC s e hinv hmin hend
        have hgcur1 : look s1.gS e.2 = some gcur := by
          rw [hs1_def]
          exact hgcur
        have hmeas2' :
            measT W H (relaxList endC e.2 gcur (getNeighbors W H walls e.2) s1) <
              measT W H s := by
          rw [hs1_def]
          exact hmeas2
        obtain ⟨r, s', hloop, ⟨tail, htail⟩, hres⟩ :=
          IH (relaxList endC e.2 gcur (getNeighbors W H walls e.2) s1)
            hainv2 (by omega)
        refine ⟨r, s', ?_, ⟨e.2 :: tail, ?_⟩, hres⟩
        · show (if e.2 = endC then
              match recon s1.cameFrom (s1.cameFrom.length + 1) e.2 with
              | none => none
              | some p => some (some p, s1)
            else
              match look s1.gS e.2 with
              | none => none
              | some gcur =>
                loopA W H walls endC fuel
                  (relaxList endC e.2 gcur (getNeighbors W H walls e.2) s1)) =
            some (r, s')
          rw [if_neg hend, hgcur1]
          exact hloop
        · rw [htail, hexp2]
          simp

/-- **C9** (confirmed).  `is_wall_between` fails with the
`InvalidArgument` condition (`ValueError("Cells must be adjacent")`)
exactly when the two cells are not grid-adjacent (Manhattan distance ≠ 1),
and otherwise returns whether the canonically sorted pair is in the wall
set. -/
theorem is_wall_between_contract (walls : Finset Wall) (c1 c2 : Cell) :
    (is_wall_between walls c1 c2 = Except.error "Cells must be adjacent" ↔
      manhattan c1 c2 ≠ 1) ∧
    (manhattan c1 c2 = 1 →
      is_wall_between walls c1 c2 =
        Except.ok (decide (sortPair c1 c2 ∈ walls))) := by
  unfold is_wall_between
  by_cases h : manhattan c1 c2 = 1 <;> simp [h]

/-- Witness for `is_wall_between_contract` at the spec's own example of
a non-adjacent pair, `(0,0)` and `(1,1)`. -/
theorem is_wall_between_contract_witness :
    is_wall_between ∅ ((0 : Int), (0 : Int)) ((1 : Int), (1 : Int)) =
      Except.error "Cells must be adjacent" :=
  (is_wall_between_contract ∅ ((0 : Int), (0 : Int)) ((1 : Int), (1 : Int))).1.mpr
    (by decide)

/-- **C4** (code bug).  `MazeGenerator.__init__` accepts no `seed`
parameter, so the seeded construction `MazeGenerator(width, height,
seed=s)` performed by every caller in the repository raises `TypeError`
instead of producing a deterministic wall set. -/
theorem init_rejects_seed_kwarg : initAcceptsKwargs ["seed"] = false := by
  decide

/-- **C6, counterexample**.  On the 5×5 fixture the search does not
return the path claimed by the spec
(`(0,0),(1,0),(2,0),(3,0),(4,0),(4,1),(4,2),(4,3),(4,4)`). -/
theorem fixture_path_not_spec_route :
    pathOf (findPath 5 5 walls5x5 (0, 0) (4, 4)) ≠
      some (some [(0, 0), (1, 0), (2, 0), (3, 0), (4, 0),
                  (4, 1), (4, 2), (4, 3), (4, 4)]) := by
  decide

/-- **C6, amended** (corrected).  On the 5×5 fixture the search returns
a path of exactly 9 cells (8 steps); the actual cells are
`(0,0),(0,1),(0,2),(0,3),(0,4),(1,4),(2,4),(3,4),(4,4)` (down the left
column, then along the bottom row). -/
theorem fixture_path_nine_cells :
    pathOf (findPath 5 5 walls5x5 (0, 0) (4, 4)) =
      some (some [(0, 0), (0, 1), (0, 2), (0, 3), (0, 4),
                  (1, 4), (2, 4), (3, 4), (4, 4)]) ∧
    [((0 : Int), (0 : Int)), (0, 1), (0, 2), (0, 3), (0, 4),
     (1, 4), (2, 4), (3, 4), (4, 4)].length = 9 := by
  constructor
  · decide
  · decide

/-- **C2** (code bug).  On the 3×5 grid with walls `(0,0)–(1,0)` and
`(1,2)–(1,3)`, `find_path((2,0), (1,4))` returns a path of 8 cells
(7 edges), while a valid 6-cell route (5 edges) exists, so the returned
length is not the shortest-path distance.  The culprit is the missing
decrease-key: an improved `g_score` of a cell already in `open_set_hash`
never updates its stale heap entry. -/
theorem astar_returns_non_shortest_path :
    (pathOf (findPath 3 5 wallsC2 (2, 0) (1, 4))).map
        (fun p => p.map List.length) = some (some 8) ∧
    routeOkB 3 5 wallsC2 (2, 0) (1, 4)
      [(2, 0), (2, 1), (2, 2), (2, 3), (2, 4), (1, 4)] = true := by
  constructor
  · decide
  · decide

theorem look_nil {α : Type} (c : Cell) :
    look ([] : List (Cell × α)) c = none :=
  rfl

theorem initA_inv (W H : Int) (walls : Finset Wall) (start endC : Cell)
    (hstart : start ∈ grid W H) :
    AInv W H walls start endC (initA start endC) := by
  have hg : ∀ c : Cell, look (initA start endC).gS c =
      if c = start then some 0 else none := fun c => rfl
  have hcf : ∀ c : Cell, look (initA start endC).cameFrom c =
      if c = start then some none else none := fun c => rfl
  refine ⟨hstart, ?_, ?_, ?_, ?_, ?_, ?_, ?_, ?_, ?_, ?_, ?_, ?_, ?_, ?_, ?_,
    ?_⟩
  · intro e he
    simp only [initA, List.mem_singleton] at he
    rw [he]
    simp [initA]
  · intro c hc
    simp only [initA, Finset.mem_singleton] at hc
    simp [initA, hc]
  · simp [initA]
  · intro c hc
    simp only [initA, Finset.mem_singleton] at hc
    rw [hg, if_pos hc]
    rfl
  · intro c
    rw [hg, hcf]
    by_cases h : c = start <;> simp [h]
  · rw [hcf, if_pos rfl]
  · rw [hg, if_pos rfl]
  · intro c h
    by_cases hc : c = start
    · exact hc
    · rw [hcf, if_neg hc] at h
      exact Option.noConfusion h
  · intro c pr h
    by_cases hc : c = start
    · rw [hcf, if_pos hc] at h
      exact Option.noConfusion (Option.some.inj h)
    · rw [hcf, if_neg hc] at h
      exact Option.noConfusion h
  · intro c h
    by_cases hc : c = start
    · rw [hc]
      exact hstart
    · rw [hg, if_neg hc] at h
      exact absurd h (by simp)
  · intro c gc h
    by_cases hc : c = start
    · rw [hg, if_pos hc] at h
      obtain rfl : gc = 0 := (Option.some.inj h).symm
      exact Nat.zero_le _
    · rw [hg, if_neg hc] at h
      exact Option.noConfusion h
  · intro c hc
    simp [initA] at hc
  · intro c hc
    simp [initA] at hc
  · intro c h
    right
    by_cases hc : c = start
    · simp [initA, hc]
    · rw [hg, if_neg hc] at h
      exact absurd h (by simp)
  · simp [initA]
  · rfl

theorem initA_measT (W H : Int) (start endC : Cell)
    (hstart : start ∈ grid W H) :
    measT W H (initA start endC) < astarFuel W H := by
  have hps : potC (grid W H).card (initA start endC) start = 0 := by
    rw [potC_some (show look (initA start endC).gS start = some 0 from by
      show look [(start, 0)] start = some 0
      rw [look_cons, if_pos rfl])]
    rw [if_pos (show start ∈ (initA start endC).hashS by simp [initA])]
  have hpo : ∀ c ∈ (grid W H).erase start,
      potC (grid W H).card (initA start endC) c = (grid W H).card + 1 := by
    intro c hc
    refine potC_none ?_
    show look [(start, 0)] c = none
    rw [look_cons, if_neg (Finset.ne_of_mem_erase hc)]
    rfl
  have hsum : ∑ c ∈ grid W H, potC (grid W H).card (initA start endC) c =
      ((grid W H).card - 1) * ((grid W H).card + 1) := by
    rw [← Finset.sum_erase_add _ _ hstart, hps, Nat.add_zero,
      Finset.sum_congr rfl hpo, Finset.sum_const,
      Finset.card_erase_of_mem hstart, smul_eq_mul]
  have hM : measM W H (initA start endC) =
      1 + ((grid W H).card - 1) * ((grid W H).card + 1) := by
    rw [measM, hsum]
    rfl
  rw [measT, hM]
  rw [show (initA start endC).openL.length = 1 from rfl]
  rw [show astarFuel W H = (W.toNat * H.toNat + 6) *
      (1 + W.toNat * H.toNat * (W.toNat * H.toNat + 1)) + 2 from rfl]
  rw [grid_card]
  have h2 : (W.toNat * H.toNat + 6) *
      (1 + (W.toNat * H.toNat - 1) * (W.toNat * H.toNat + 1)) ≤
      (W.toNat * H.toNat + 6) *
      (1 + W.toNat * H.toNat * (W.toNat * H.toNat + 1)) := by
    refine Nat.mul_le_mul_left _ ?_
    have h1 : (W.toNat * H.toNat - 1) * (W.toNat * H.toNat + 1) ≤
        W.toNat * H.toNat * (W.toNat * H.toNat + 1) :=
      Nat.mul_le_mul_right _ (Nat.sub_le _ 1)
    omega
  omega

theorem manhattan_step {c : Cell} {d : Int × Int} (hd : d ∈ astarDirs) :
    manhattan c (stepCell c d) = 1 := by
  simp only [astarDirs, List.mem_cons, List.not_mem_nil, or_false] at hd
  rcases hd with rfl | rfl | rfl | rfl <;>
    · simp only [manhattan, stepCell]
      omega

theorem getNeighbors_step_ok {W H : Int} {walls : Finset Wall} {x y : Cell}
    (h : y ∈ getNeighbors W H walls x) :
    manhattan x y = 1 ∧ sortPair x y ∉ walls := by
  obtain ⟨d, hd, hy, _, hw⟩ := mem_getNeighbors.mp h
  exact ⟨by rw [hy]; exact manhattan_step hd, hw⟩

theorem chain_to_reach {W H : Int} {walls : Finset Wall} :
    ∀ (l : List Cell) (a b : Cell), l.head? = some a → l.getLast? = some b →
      l.Chain' (fun x y => y ∈ getNeighbors W H walls x) →
      Reach W H walls a b := by
  intro l
  induction l with
  | nil =>
    intro a b h _ _
    exact Option.noConfusion h
  | cons x xs IH =>
    intro a b hh hl hc
    have hxa : x = a := by simpa using hh
    cases xs with
    | nil =>
      have hab : a = b := by
        rw [← hxa]
        simpa using hl
      rw [hab]
      exact Relation.ReflTransGen.refl
    | cons y ys =>
      rw [List.chain'_cons] at hc
      rw [List.getLast?_cons_cons] at hl
      refine Relation.ReflTransGen.head ?_ (IH y b rfl hl hc.2)
      rw [← hxa]
      exact hc.1

theorem explored_closed_of_empty {W H : Int} {walls : Finset Wall}
    {start endC : Cell} {s : AState}
    (hinv : AInv W H walls start endC s) (hempty : s.openL = []) :
    ∀ b, Reach W H walls start b → b ∈ s.explored := by
  have hhash : ∀ c : Cell, c ∉ s.hashS := by
    intro c hc
    have h := hinv.iHashOpen c hc
    rw [hempty] at h
    simp at h
  have hmem : ∀ c : Cell, (look s.gS c).isSome → c ∈ s.explored := by
    intro c hc
    rcases hinv.iDomWhere c hc with h | h
    · exact h
    · exact absurd h (hhash c)
  intro b hr
  induction hr with
  | refl => exact hmem start (by rw [hinv.iStartG]; rfl)
  | tail hab hbc IH => exact hmem _ (hinv.iClosed _ IH _ hbc)

theorem loopA_step (W H : Int) (walls : Finset Wall) (endC : Cell)
    (fuel : ℕ) (s : AState) (e : ℕ × Cell) (gcur : ℕ)
    (hmin : minEntry s.openL = some e) (hne : e.2 ≠ endC)
    (hlook : look s.gS e.2 = some gcur) :
    loopA W H walls endC (fuel + 1) s =
      loopA W H walls endC fuel
        (relaxList endC e.2 gcur (getNeighbors W H walls e.2)
          { s with openL := eraseEntry s.openL e,
                   hashS := s.hashS.erase e.2,
                   explored := s.explored ++ [e.2] }) := by
  set s1 : AState :=
    { s with openL := eraseEntry s.openL e,
             hashS := s.hashS.erase e.2,
             explored := s.explored ++ [e.2] } with hs1_def
  have hlook1 : look s1.gS e.2 = some gcur := by
    rw [hs1_def]
    exact hlook
  rw [loopA, hmin]
  show (if e.2 = endC then
      match recon s1.cameFrom (s1.cameFrom.length + 1) e.2 with
      | none => none
      | some p => some (some p, s1)
    else
      match look s1.gS e.2 with
      | none => none
      | some gcur =>
        loopA W H walls endC fuel
          (relaxList endC e.2 gcur (getNeighbors W H walls e.2) s1)) =
    loopA W H walls endC fuel
      (relaxList endC e.2 gcur (getNeighbors W H walls e.2) s1)
  rw [if_neg hne, hlook1]

theorem findPath_finds (W H : Int) (walls : Finset Wall) (start endC : Cell)
    (hstart : start ∈ grid W H)
    (hreach : Reach W H walls start endC) :
    ∃ p, pathOf (findPath W H walls start endC) = some (some p) := by
  obtain ⟨r, s', hloop, _, hres⟩ :=
    loop_spec W H walls start endC (astarFuel W H) (initA start endC)
      (initA_inv W H walls start endC hstart)
      (initA_measT W H start endC hstart)
  have hpath : pathOf (findPath W H walls start endC) = some r := by
    show (loopA W H walls endC (astarFuel W H) (initA start endC)).map
        (fun x => x.1) = some r
    rw [hloop]
    rfl
  rcases hres with ⟨hrn, hopenE, hinv'⟩ | ⟨p, hpr, _, _, _, _⟩
  · exfalso
    exact hinv'.iEndNot (explored_closed_of_empty hinv' hopenE endC hreach)
  · exact ⟨p, by rw [hpath, hpr]⟩

theorem passage_step {W H : Int} {ws : Finset Wall} {x y : Cell}
    (h : sortPair x y ∈ initWalls W H \ ws) : y ∈ getNeighbors W H ws x := by
  rw [Finset.mem_sdiff] at h
  obtain ⟨hi, hw⟩ := h
  rw [mem_initWalls] at hi
  rw [mem_getNeighbors]
  obtain ⟨x1, x2⟩ := x
  obtain ⟨y1, y2⟩ := y
  rcases sortPair_cases (x1, x2) (y1, y2) with hc | hc <;>
    rw [hc] at hi <;>
    simp only [mem_grid] at hi <;>
    obtain ⟨hx, hy, hd⟩ := hi
  · rcases hd with hd | hd
    · refine ⟨(1, 0), by decide, ?_, ?_, hw⟩
      · show (y1, y2) = (x1 + 1, x2 + 0)
        rw [Prod.mk.injEq] at hd ⊢
        omega
      · rw [inBounds_iff, mem_grid]
        rw [Prod.mk.injEq] at hd
        refine ⟨?_, ?_, ?_, ?_⟩ <;> omega
    · refine ⟨(0, 1), by decide, ?_, ?_, hw⟩
      · show (y1, y2) = (x1 + 0, x2 + 1)
        rw [Prod.mk.injEq] at hd ⊢
        omega
      · rw [inBounds_iff, mem_grid]
        rw [Prod.mk.injEq] at hd
        refine ⟨?_, ?_, ?_, ?_⟩ <;> omega
  · rcases hd with hd | hd
    · refine ⟨(-1, 0), by decide, ?_, ?_, hw⟩
      · show (y1, y2) = (x1 + -1, x2 + 0)
        rw [Prod.mk.injEq] at hd ⊢
        omega
      · rw [inBounds_iff, mem_grid]
        rw [Prod.mk.injEq] at hd
        refine ⟨?_, ?_, ?_, ?_⟩ <;> omega
    · refine ⟨(0, -1), by decide, ?_, ?_, hw⟩
      · show (y1, y2) = (x1 + 0, x2 + -1)
        rw [Prod.mk.injEq] at hd ⊢
        omega
      · rw [inBounds_iff, mem_grid]
        rw [Prod.mk.injEq] at hd
        refine ⟨?_, ?_, ?_, ?_⟩ <;> omega

theorem generated_reach (W H : Int) (rng : ℕ → List (Int × Int))
    (hrng : ∀ k, (rng k).Perm genDirs) (hW : 1 ≤ W) (hH : 1 ≤ H)
    {a b : Cell} (ha : a ∈ grid W H) (hb : b ∈ grid W H) :
    Reach W H (generate W H rng genInit).walls a b := by
  obtain ⟨_, _, hst⟩ := generate_spec W H rng hrng hW hH
  refine Relation.ReflTransGen.mono ?_ (spanTree_reach hst a ha b hb)
  intro x y hxy
  exact passage_step hxy

/-- **C5** (confirmed).  For every grid, wall set and in-bounds start and
end, whenever `find_path(start, end)` returns a non-`None` path, its first
element is `start`, its last element is `end`, every consecutive pair is
grid-adjacent (Manhattan distance exactly 1), and the canonically sorted
pair of each consecutive pair is absent from the wall set. -/
theorem astar_path_valid (W H : Int) (walls : Finset Wall) (start endC : Cell)
    (hstart : inBounds W H start = true) (hend : inBounds W H endC = true)
    (p : List Cell)
    (hp : pathOf (findPath W H walls start endC) = some (some p)) :
    p.head? = some start ∧ p.getLast? = some endC ∧
    p.Chain' (fun x y => manhattan x y = 1 ∧ sortPair x y ∉ walls) := by
  obtain ⟨r, s', hloop, _, hres⟩ :=
    loop_spec W H walls start endC (astarFuel W H) (initA start endC)
      (initA_inv W H walls start endC (inBounds_iff.mp hstart))
      (initA_measT W H start endC (inBounds_iff.mp hstart))
  have hp' : (loopA W H walls endC (astarFuel W H) (initA start endC)).map
      (fun x => x.1) = some (some p) := hp
  rw [hloop] at hp'
  have hp2 : r = some p := Option.some.inj hp'
  rcases hres with ⟨hrn, _, _⟩ | ⟨q, hq, hqh, hql, hqc, _, _⟩
  · rw [hrn] at hp2
    exact Option.noConfusion hp2
  · rw [hq] at hp2
    obtain rfl : q = p := Option.some.inj hp2
    exact ⟨hqh, hql,
      List.Chain'.imp (fun a b hab => getNeighbors_step_ok hab) hqc⟩

/-- Witness for `astar_path_valid`: the 1×2 grid with no walls, where the
search returns the two-cell path from `(0,0)` to `(0,1)`. -/
theorem astar_path_valid_witness :
    [((0 : Int), (0 : Int)), (0, 1)].head? = some ((0 : Int), (0 : Int)) ∧
    [((0 : Int), (0 : Int)), (0, 1)].getLast? = some ((0 : Int), (1 : Int)) ∧
    [((0 : Int), (0 : Int)), (0, 1)].Chain'
      (fun x y => manhattan x y = 1 ∧ sortPair x y ∉ (∅ : Finset Wall)) :=
  astar_path_valid 1 2 ∅ (0, 0) (0, 1) (by decide) (by decide)
    [(0, 0), (0, 1)] (by decide)

/-- **C7, amended theorem** (corrected).  Parts (1) and (3) of the claim
hold: every cell of a returned path appears in `explored_order`, and the
end cell is the last element of `explored_order` when a path is returned.
(Part (2), absence of duplicates, is refuted separately.) -/
theorem explored_covers_path_and_ends (W H : Int) (walls : Finset Wall)
    (start endC : Cell) (hstart : inBounds W H start = true)
    (hend : inBounds W H endC = true) (p : List Cell) (expl : List Cell)
    (hp : pathOf (findPath W H walls start endC) = some (some p))
    (hexp : exploredOf (findPath W H walls start endC) = some expl) :
    (∀ c ∈ p, c ∈ expl) ∧ expl.getLast? = some endC := by
  obtain ⟨r, s', hloop, _, hres⟩ :=
    loop_spec W H walls start endC (astarFuel W H) (initA start endC)
      (initA_inv W H walls start endC (inBounds_iff.mp hstart))
      (initA_measT W H start endC (inBounds_iff.mp hstart))
  have hp' : (loopA W H walls endC (astarFuel W H) (initA start endC)).map
      (fun x => x.1) = some (some p) := hp
  have he' : (loopA W H walls endC (astarFuel W H) (initA start endC)).map
      (fun x => x.2.explored) = some expl := hexp
  rw [hloop] at hp' he'
  have hp2 : r = some p := Option.some.inj hp'
  have he2 : s'.explored = expl := Option.some.inj he'
  rcases hres with ⟨hrn, _, _⟩ | ⟨q, hq, _, _, _, hqm, pre, hpre⟩
  · rw [hrn] at hp2
    exact Option.noConfusion hp2
  · rw [hq] at hp2
    obtain rfl : q = p := Option.some.inj hp2
    refine ⟨fun c hc => ?_, ?_⟩
    · rw [← he2]
      exact hqm c hc
    · rw [← he2, hpre]
      exact List.getLast?_concat pre

/-- Witness for `explored_covers_path_and_ends` on the 1×2 no-wall grid,
where both the path and the exploration order are `[(0,0), (0,1)]`. -/
theorem explored_covers_path_and_ends_witness :
    (∀ c ∈ [((0 : Int), (0 : Int)), ((0 : Int), (1 : Int))],
      c ∈ [((0 : Int), (0 : Int)), ((0 : Int), (1 : Int))]) ∧
    [((0 : Int), (0 : Int)), ((0 : Int), (1 : Int))].getLast? =
      some ((0 : Int), (1 : Int)) :=
  explored_covers_path_and_ends 1 2 ∅ (0, 0) (0, 1) (by decide) (by decide)
    [(0, 0), (0, 1)] [(0, 0), (0, 1)] (by decide) (by decide)

/-- **C8** (confirmed).  When the end cell is unreachable from the start
through passages, `find_path` returns `None` as a normal value (the loop
drains the heap and falls through), and `explored_order` is still
populated: its first entry is the start cell, the first cell the
algorithm finalized. -/
theorem unreachable_returns_none (W H : Int) (walls : Finset Wall)
    (start endC : Cell) (hstart : inBounds W H start = true)
    (hend : inBounds W H endC = true)
    (hunreach : ¬ Reach W H walls start endC) :
    pathOf (findPath W H walls start endC) = some none ∧
    ∃ expl, exploredOf (findPath W H walls start endC) = some expl ∧
      expl.head? = some start := by
  have hg0 : start ∈ grid W H := inBounds_iff.mp hstart
  have hne : start ≠ endC := by
    intro h
    exact hunreach (h ▸ Relation.ReflTransGen.refl)
  obtain ⟨f, hf⟩ : ∃ f, astarFuel W H = f + 1 := ⟨_, rfl⟩
  have hmin0 : minEntry (initA start endC).openL = some (0, start) := rfl
  have hne' : ((0, start) : ℕ × Cell).2 ≠ endC := hne
  have hlook0 : look (initA start endC).gS ((0, start) : ℕ × Cell).2 =
      some 0 := by
    show look [(start, 0)] start = some 0
    rw [look_cons, if_pos rfl]
  obtain ⟨gcur, hgcur, hainv2, hmeas2, hexp2⟩ :=
    loop_iter W H walls start endC (initA start endC) (0, start)
      (initA_inv W H walls start endC hg0) hmin0 hne'
  obtain rfl : gcur = 0 := by
    have h0 : look (initA start endC).gS ((0, start) : ℕ × Cell).2 =
        some gcur := hgcur
    rw [hlook0] at h0
    exact (Option.some.inj h0).symm
  have hrun := loopA_step W H walls endC f (initA start endC) (0, start) 0
    hmin0 hne' hlook0
  obtain ⟨r, s', hloop, ⟨tail, htail⟩, hres⟩ :=
    loop_spec W H walls start endC f _ hainv2
      (by
        have h1 := initA_measT W H start endC hg0
        rw [hf] at h1
        omega)
  have hfull : loopA W H walls endC (astarFuel W H) (initA start endC) =
      some (r, s') := by
    rw [hf, hrun]
    exact hloop
  have hhead : s'.explored.head? = some start := by
    rw [htail, hexp2]
    rfl
  rcases hres with ⟨hrn, hopenE, hinv'⟩ | ⟨p, hpr, hph, hpl, hpc, _, _⟩
  · have hpath : pathOf (findPath W H walls start endC) = some r := by
      show (loopA W H walls endC (astarFuel W H) (initA start endC)).map
          (fun x => x.1) = some r
      rw [hfull]
      rfl
    have hexpl : exploredOf (findPath W H walls start endC) =
        some s'.explored := by
      show (loopA W H walls endC (astarFuel W H) (initA start endC)).map
          (fun x => x.2.explored) = some s'.explored
      rw [hfull]
      rfl
    refine ⟨by rw [hpath, hrn], s'.explored, hexpl, hhead⟩
  · exact absurd (chain_to_reach p start endC hph hpl hpc) hunreach

/-- Witness for `unreachable_returns_none`: the 2×1 grid whose single
interior wall disconnects the two cells. -/
theorem unreachable_returns_none_witness :
    pathOf (findPath 2 1 {(((0 : Int), (0 : Int)), ((1 : Int), (0 : Int)))}
        (0, 0) (1, 0)) = some none ∧
    ∃ expl, exploredOf (findPath 2 1
        {(((0 : Int), (0 : Int)), ((1 : Int), (0 : Int)))} (0, 0) (1, 0)) =
      some expl ∧ expl.head? = some ((0 : Int), (0 : Int)) :=
  unreachable_returns_none 2 1
    {(((0 : Int), (0 : Int)), ((1 : Int), (0 : Int)))} (0, 0) (1, 0)
    (by decide) (by decide)
    (by
      intro h
      rcases Relation.ReflTransGen.cases_head h with heq | ⟨c, hstep, _⟩
      · exact absurd heq (by decide)
      · have hc : c ∈ getNeighbors 2 1
            {(((0 : Int), (0 : Int)), ((1 : Int), (0 : Int)))} (0, 0) := hstep
        rw [show getNeighbors 2 1
            {(((0 : Int), (0 : Int)), ((1 : Int), (0 : Int)))} (0, 0) =
            ([] : List Cell) from by decide] at hc
        exact absurd hc (by simp))

/-- **C3** (confirmed).  For every `width, height ≥ 1` and every wall set
produced by `generate()` on a fresh generator (any shuffle stream), the
search `find_path((0,0), (width-1, height-1))` returns a non-`None`
path. -/
theorem generated_maze_solvable (W H : Int) (rng : ℕ → List (Int × Int))
    (hrng : ∀ k, (rng k).Perm genDirs) (hW : 1 ≤ W) (hH : 1 ≤ H) :
    ∃ p, pathOf (findPath W H (generate W H rng genInit).walls
        (0, 0) (W - 1, H - 1)) = some (some p) := by
  have h0 : ((0, 0) : Cell) ∈ grid W H := by
    rw [mem_grid]
    show (0 : Int) ≤ 0 ∧ (0 : Int) < W ∧ (0 : Int) ≤ 0 ∧ (0 : Int) < H
    omega
  have h1 : ((W - 1, H - 1) : Cell) ∈ grid W H := by
    rw [mem_grid]
    show (0 : Int) ≤ W - 1 ∧ W - 1 < W ∧ (0 : Int) ≤ H - 1 ∧ H - 1 < H
    omega
  exact findPath_finds W H (generate W H rng genInit).walls (0, 0)
    (W - 1, H - 1) h0 (generated_reach W H rng hrng hW hH h0 h1)

/-- Witness for `generated_maze_solvable` on the 2×1 grid with the
identity shuffle stream. -/
theorem generated_maze_solvable_witness :
    ∃ p, pathOf (findPath 2 1 (generate 2 1 (fun _ => genDirs) genInit).walls
        (0, 0) (2 - 1, 1 - 1)) = some (some p) :=
  generated_maze_solvable 2 1 (fun _ => genDirs) (fun _ => List.Perm.refl _)
    (by norm_num) (by norm_num)

/-- **C7, counterexample**.  A call on the 4×3 grid that does return a
path yet leaves a duplicated cell (`(1,2)`) in `explored_order`: a
finalized cell was improved, re-pushed and finalized again. -/
theorem explored_order_has_duplicates :
    (exploredOf (findPath 4 3 wallsC7 (3, 1) (1, 0))).map
        (fun l => decide l.Nodup) = some false ∧
    (pathOf (findPath 4 3 wallsC7 (3, 1) (1, 0))).map Option.isSome =
      some true := by
  constructor
  · decide
  · decide

end AMaze
